import Mathlib

/-!
# Order lifecycle controller of ninjabot (`pkg/order/controller.go`)

A shallow embedding of the controller: the per-symbol `summary`, the
weighted-average-cost profit attribution (`calculateProfit`, `processTrade`),
the reconciliation cycle (`updateOrders`) and the submitting operations
(`OrderMarket`, `OrderLimit`, `OrderOCO`, `Cancel`).

Conventions of the embedding.

* `float64` values are exact rationals: rounding, overflow, infinities and NaN
  are outside the model.  Where a divisor is zero Go yields an infinity or NaN
  and the rationals yield 0: the theorems state such a quotient only as the
  quotient the code computes, and no proof below uses its value.
* The exchange and the failures of the repository are inputs of every
  operation (`Env`): the exchange is an external collaborator whose answers the
  controller does not control.
* A Go run-time failure that ends the process (nil dereference, unlock of an
  unlocked mutex) is the `error` case of `Except Crash`.  The model is
  sequential: an operation starts with the mutex free, as it is in every
  reachable state (`reachable_mtx_free`), and `Lock` on a held mutex never
  returns.
* Every externally visible action of the controller is appended to
  `Controller.trace`; logging and the notifier are output only and are left out.
-/

namespace Ninjabot

/-- Go `float64`, taken as an exact rational. -/
abbrev Float64 := ℚ

/-- Go `time.Time`, taken as an instant on a discrete time line. -/
abbrev Time := Int

/-- Modelled from the spec: `model.SideType` (declared in `pkg/model`), the side
of an order: buy or sell. -/
inductive SideType
  | Buy
  | Sell
  deriving DecidableEq, Repr

/-- Modelled from the spec: `model.OrderType` (declared in `pkg/model`), the type
of an order: market, limit, stop, stop-limit. -/
inductive OrderType
  | Limit
  | Market
  | StopLoss
  | StopLossLimit
  deriving DecidableEq, Repr

/-- Modelled from the spec: `model.OrderStatusType` (declared in `pkg/model`), the
status of an order: new, partially-filled, filled, pending-cancel, canceled. -/
inductive OrderStatusType
  | New
  | PartiallyFilled
  | Filled
  | Canceled
  | PendingCancel
  deriving DecidableEq, Repr

/-- Go `error` values returned by the exchange or by the repository. -/
inductive Error
  | exchange
  | storage
  deriving DecidableEq, Repr

/-- Run-time failures that end the Go process. -/
inductive Crash
  | unlockOfUnlockedMutex
  | nilPointerDereference
  | deadlock
  deriving DecidableEq, Repr

/-- Modelled from the spec: `model.Order` (declared in `pkg/model`), the in-memory
order; `Stop` and `GroupID` are pointers in Go, `Profit` is the realized-profit
fraction. -/
structure Order where
  ID : Nat
  ExchangeID : Int
  Symbol : String
  Side : SideType
  Type_ : OrderType
  Status : OrderStatusType
  Price : Float64
  Quantity : Float64
  Stop : Option Float64
  GroupID : Option Int
  CreatedAt : Time
  UpdatedAt : Time
  Profit : Float64
  deriving DecidableEq

/-- Modelled from the spec: `ent.Order` (generated code of `pkg/ent`), one row of
the order table; `Stop` is a plain `float64` there (`price = order.Stop`). -/
structure EntOrder where
  ID : Nat
  ExchangeID : Int
  Symbol : String
  Side : SideType
  Type_ : OrderType
  Status : OrderStatusType
  Price : Float64
  Quantity : Float64
  Stop : Float64
  GroupID : Option Int
  CreatedAt : Time
  UpdatedAt : Time
  deriving DecidableEq

/-- The `summary` struct: realized results of one symbol. -/
structure summary where
  Symbol : String
  Win : List Float64
  Lose : List Float64
  deriving DecidableEq

/-- `summary.Profit`: the sum of all wins and losses. -/
def summary.Profit (s : summary) : Float64 :=
  (s.Win ++ s.Lose).foldl (fun profit value => profit + value) 0

/-- `summary.Payoff`. -/
def summary.Payoff (s : summary) : Float64 :=
  let avgWin := s.Win.foldl (fun acc value => acc + value) 0
  let avgLose := s.Lose.foldl (fun acc value => acc + value) 0
  if s.Win.length = 0 ∨ s.Lose.length = 0 then 0
  else (avgWin / (s.Win.length : Float64)) / |avgLose / (s.Lose.length : Float64)|

/-- Externally visible actions of the controller, in the order they happen. -/
inductive Effect
  | lock
  | unlock
  | exchangeOrder (row : EntOrder)
  | save (id : Nat) (ok : Bool)
  | create (ok : Bool)
  | publish (o : Order) (isNewlyCreated : Bool)
  deriving DecidableEq

/-- Whether an effect is a call of `orderFeed.Publish`. -/
def Effect.isPublish : Effect → Bool
  | .publish _ _ => true
  | _ => false

/-- Whether an effect is a write to the repository (attempted update or create). -/
def Effect.isWrite : Effect → Bool
  | .save _ _ => true
  | .create _ => true
  | _ => false

/-- Modelled from the spec: the `exchange.Exchange` interface (declared in
`pkg/exchange`), restricted to the calls the controller's mutating operations
make. -/
structure Exchange where
  Order : String → Int → Except Error Ninjabot.Order
  OrderMarket : SideType → String → Float64 → Except Error Ninjabot.Order
  OrderLimit : SideType → String → Float64 → Float64 → Except Error Ninjabot.Order
  OrderOCO : SideType → String → Float64 → Float64 → Float64 → Float64 →
    Except Error (List Ninjabot.Order)
  Cancel : Ninjabot.Order → Option Error

/-- What the outside world does during one controller operation: the answers of
the exchange and which repository calls fail. -/
structure Env where
  exchange : Exchange
  queryOpenFails : Bool
  queryHistoryFails : Nat → Bool
  saveFails : Nat → Bool
  createFails : Nat → Bool

/-- The `Controller` struct: the mutex, the repository contents, the per-symbol
results and the actions performed so far. -/
structure Controller where
  mtx : Bool
  storage : List EntOrder
  Results : String → Option summary
  trace : List Effect

/-- `NewController`: an empty results map over the given repository. -/
def NewController (storage : List EntOrder) : Controller :=
  { mtx := false, storage := storage, Results := fun _ => none, trace := [] }

/-- `sync.Mutex.Lock`. -/
def Controller.Lock (c : Controller) : Except Crash Controller :=
  if c.mtx then .error .deadlock
  else .ok { c with mtx := true, trace := c.trace ++ [.lock] }

/-- `sync.Mutex.Unlock`: a fatal error when the mutex is not held. -/
def Controller.Unlock (c : Controller) : Except Crash Controller :=
  if c.mtx then .ok { c with mtx := false, trace := c.trace ++ [.unlock] }
  else .error .unlockOfUnlockedMutex

/-- Modelled from the spec: repository query "filled orders for symbol with update
time ≤ cutoff, excluding one id, ordered by update time ascending" (the `ent`
query built in `calculateProfit`). -/
def queryHistory (rows : List EntOrder) (o : Order) : List EntOrder :=
  (rows.filter (fun r =>
      decide (r.UpdatedAt ≤ o.UpdatedAt) && decide (r.Status = .Filled) &&
      decide (r.Symbol = o.Symbol) && decide (r.ID ≠ o.ID))).insertionSort
    (fun a b => a.UpdatedAt ≤ b.UpdatedAt)

/-- Whether a status is one of new, partially-filled, pending-cancel. -/
def OrderStatusType.isOpen : OrderStatusType → Bool
  | .New => true
  | .PartiallyFilled => true
  | .PendingCancel => true
  | _ => false

/-- Modelled from the spec: repository query "orders by status-set, ordered by id
ascending" (the `ent` query built in `updateOrders`). -/
def queryOpen (rows : List EntOrder) : List EntOrder :=
  (rows.filter (fun r => r.Status.isOpen)).insertionSort (fun a b => a.ID ≤ b.ID)

/-- Modelled from the spec: repository operation "update one order's
status/quantity/price/updated-time by local id" (`order.Update()...Save`). -/
def updateRow (rows : List EntOrder) (id : Nat) (excOrder : Order) : List EntOrder :=
  rows.map (fun r =>
    if r.ID = id then
      { r with UpdatedAt := excOrder.UpdatedAt, Status := excOrder.Status,
               Quantity := excOrder.Quantity, Price := excOrder.Price }
    else r)

/-- Modelled from the spec: repository operation updating the status of one order
by local id (`UpdateOneID(id).SetStatus(...)`). -/
def setStatus (rows : List EntOrder) (id : Nat) (st : OrderStatusType) : List EntOrder :=
  rows.map (fun r => if r.ID = id then { r with Status := st } else r)

/-- Modelled from the spec: `create(order)` assigns the local id; the model takes one
more than the largest id in the table, an id no row has. -/
def nextID (rows : List EntOrder) : Nat :=
  (rows.map (fun r => r.ID)).foldr max 0 + 1

/-- The loop of `calculateProfit` over the history, on the running
`(quantity, avgPrice)`. -/
def walk : List EntOrder → Float64 × Float64 → Float64 × Float64
  | [], acc => acc
  | order :: rest, (quantity, avgPrice) =>
    if order.Side = .Buy then
      let price :=
        if order.Type_ = .StopLoss ∨ order.Type_ = .StopLossLimit then order.Stop
        else order.Price
      walk rest (quantity + order.Quantity,
        (order.Quantity * price + avgPrice * quantity) / (order.Quantity + quantity))
    else
      walk rest (max (quantity - order.Quantity) 0, avgPrice)

/-- `Controller.calculateProfit`: `(value, percent, err)`, or a crash when the
stop price of a stop order is a nil pointer. -/
def calculateProfit (rows : List EntOrder) (queryFails : Bool) (o : Order) :
    Except Crash (Float64 × Float64 × Option Error) :=
  if queryFails then .ok (0, 0, some .storage)
  else
    let avgPrice := (walk (queryHistory rows o) (0, 0)).2
    let cost := o.Quantity * avgPrice
    if o.Type_ = .StopLoss ∨ o.Type_ = .StopLossLimit then
      match o.Stop with
      | none => .error .nilPointerDereference
      | some price =>
        let profitValue := o.Quantity * price - cost
        .ok (profitValue, profitValue / cost, none)
    else
      let profitValue := o.Quantity * o.Price - cost
      .ok (profitValue, profitValue / cost, none)

/-- The summary of a symbol after one more realized value. -/
def recordResult (results : String → Option summary) (symbol : String)
    (profitValue : Float64) : String → Option summary :=
  let s := (results symbol).getD { Symbol := symbol, Win := [], Lose := [] }
  let s :=
    if profitValue ≥ 0 then { s with Win := s.Win ++ [profitValue] }
    else { s with Lose := s.Lose ++ [profitValue] }
  Function.update results symbol (some s)

/-- `Controller.processTrade`: the controller and the order after the call (the
order is passed by pointer and gets its `Profit`). -/
def processTrade (env : Env) (c : Controller) (order : Order) :
    Except Crash (Controller × Order) :=
  match calculateProfit c.storage (env.queryHistoryFails order.ID) order with
  | .error e => .error e
  | .ok (profitValue, profit, _) =>
    .ok ({ c with Results := recordResult c.Results order.Symbol profitValue },
         { order with Profit := profit })

/-- First loop of `updateOrders`: query the exchange for each open order and write
the changed ones; returns the controller and `updatedOrders`. -/
def reconcile (env : Env) :
    List EntOrder → Controller → List Order → Controller × List Order
  | [], c, updatedOrders => (c, updatedOrders)
  | order :: rest, c, updatedOrders =>
    let c := { c with trace := c.trace ++ [.exchangeOrder order] }
    match env.exchange.Order order.Symbol order.ExchangeID with
    | .error _ => reconcile env rest c updatedOrders
    | .ok excOrder =>
      if excOrder.Status = order.Status then reconcile env rest c updatedOrders
      else
        let excOrder := { excOrder with ID := order.ID }
        if env.saveFails order.ID then
          reconcile env rest { c with trace := c.trace ++ [.save order.ID false] }
            updatedOrders
        else
          reconcile env rest
            { c with storage := updateRow c.storage order.ID excOrder,
                     trace := c.trace ++ [.save order.ID true] }
            (updatedOrders ++ [excOrder])

/-- Second loop of `updateOrders`: attribute profit to filled sells and publish
every updated order. -/
def publishUpdates (env : Env) : List Order → Controller → Except Crash Controller
  | [], c => .ok c
  | processOrder :: rest, c =>
    if processOrder.Side = .Sell ∧ processOrder.Status = .Filled then
      match processTrade env c processOrder with
      | .error e => .error e
      | .ok (c, processOrder) =>
        publishUpdates env rest
          { c with trace := c.trace ++ [.publish processOrder false] }
    else
      publishUpdates env rest
        { c with trace := c.trace ++ [.publish processOrder false] }

/-- `Controller.updateOrders`: one reconciliation cycle.  The deferred
`c.mtx.Unlock()` runs when the function returns, also after the explicit
`c.mtx.Unlock()` of the path on which the query of the open orders fails. -/
def updateOrders (env : Env) (c : Controller) : Except Crash Controller :=
  match c.Lock with
  | .error e => .error e
  | .ok c =>
    if env.queryOpenFails then
      match c.Unlock with
      | .error e => .error e
      | .ok c => c.Unlock
    else
      let (c, updatedOrders) := reconcile env (queryOpen c.storage) c []
      match publishUpdates env updatedOrders c with
      | .error e => .error e
      | .ok c => c.Unlock

/-- The row `createOrder` builds for an order (the Go variable `register`); a nil
`Stop` leaves the column at its zero value. -/
def register (id : Nat) (order : Order) : EntOrder :=
  { ID := id, ExchangeID := order.ExchangeID, Symbol := order.Symbol,
    Side := order.Side, Type_ := order.Type_, Status := order.Status,
    Price := order.Price, Quantity := order.Quantity, Stop := order.Stop.getD 0,
    GroupID := order.GroupID, CreatedAt := order.CreatedAt,
    UpdatedAt := order.UpdatedAt }

/-- `Controller.createOrder`: persist an order; on success the order gets the
local id of the new row. -/
def createOrder (fails : Bool) (c : Controller) (order : Order) :
    Controller × Order × Option Error :=
  if fails then
    ({ c with trace := c.trace ++ [.create false] }, order, some .storage)
  else
    ({ c with storage := c.storage ++ [register (nextID c.storage) order],
              trace := c.trace ++ [.create true] },
      { order with ID := nextID c.storage }, none)

/-- The loop of `OrderOCO` over the legs returned by the exchange, from leg
number `i`; `done` are the legs persisted so far. -/
def createLegs (env : Env) :
    Nat → List Order → Controller → List Order → Controller × Except Error (List Order)
  | _, [], c, done => (c, .ok done)
  | i, o :: rest, c, done =>
    match createOrder (env.createFails i) c o with
    | (c, _, some err) => (c, .error err)
    | (c, o, none) =>
      createLegs env (i + 1) rest { c with trace := c.trace ++ [.publish o true] }
        (done ++ [o])

/-- `Controller.OrderOCO`. -/
def OrderOCO (env : Env) (c : Controller) (side : SideType) (symbol : String)
    (size price stop stopLimit : Float64) :
    Except Crash (Controller × Except Error (List Order)) :=
  match c.Lock with
  | .error e => .error e
  | .ok c =>
    match env.exchange.OrderOCO side symbol size price stop stopLimit with
    | .error err =>
      match c.Unlock with
      | .error e => .error e
      | .ok c => .ok (c, .error err)
    | .ok orders =>
      let (c, res) := createLegs env 0 orders c []
      match c.Unlock with
      | .error e => .error e
      | .ok c => .ok (c, res)

/-- `Controller.OrderLimit`. -/
def OrderLimit (env : Env) (c : Controller) (side : SideType) (symbol : String)
    (size limit : Float64) : Except Crash (Controller × Except Error Order) :=
  match c.Lock with
  | .error e => .error e
  | .ok c =>
    match env.exchange.OrderLimit side symbol size limit with
    | .error err =>
      match c.Unlock with
      | .error e => .error e
      | .ok c => .ok (c, .error err)
    | .ok order =>
      match createOrder (env.createFails 0) c order with
      | (c, _, some err) =>
        match c.Unlock with
        | .error e => .error e
        | .ok c => .ok (c, .error err)
      | (c, order, none) =>
        match Controller.Unlock { c with trace := c.trace ++ [.publish order true] } with
        | .error e => .error e
        | .ok c => .ok (c, .ok order)

/-- `Controller.OrderMarket`. -/
def OrderMarket (env : Env) (c : Controller) (side : SideType) (symbol : String)
    (size : Float64) : Except Crash (Controller × Except Error Order) :=
  match c.Lock with
  | .error e => .error e
  | .ok c =>
    match env.exchange.OrderMarket side symbol size with
    | .error err =>
      match c.Unlock with
      | .error e => .error e
      | .ok c => .ok (c, .error err)
    | .ok order =>
      match createOrder (env.createFails 0) c order with
      | (c, _, some err) =>
        match c.Unlock with
        | .error e => .error e
        | .ok c => .ok (c, .error err)
      | (c, order, none) =>
        let traded :=
          if order.Side = .Sell then processTrade env c order else .ok (c, order)
        match traded with
        | .error e => .error e
        | .ok (c, order) =>
          match Controller.Unlock { c with trace := c.trace ++ [.publish order true] } with
          | .error e => .error e
          | .ok c => .ok (c, .ok order)

/-- `Controller.Cancel`; the update by id fails when no row has the id. -/
def Cancel (env : Env) (c : Controller) (order : Order) :
    Except Crash (Controller × Option Error) :=
  match c.Lock with
  | .error e => .error e
  | .ok c =>
    match env.exchange.Cancel order with
    | some err =>
      match c.Unlock with
      | .error e => .error e
      | .ok c => .ok (c, some err)
    | none =>
      if env.saveFails order.ID ∨ ¬ (∃ r ∈ c.storage, r.ID = order.ID) then
        match Controller.Unlock { c with trace := c.trace ++ [.save order.ID false] } with
        | .error e => .error e
        | .ok c => .ok (c, some .storage)
      else
        match Controller.Unlock
            { c with storage := setStatus c.storage order.ID .PendingCancel,
                     trace := c.trace ++ [.save order.ID true] } with
        | .error e => .error e
        | .ok c => .ok (c, none)

/-! ## Reachable states -/

/-- States the controller can be in: a fresh controller over any repository
contents, followed by any number of operations that return. -/
inductive Reachable : Controller → Prop
  | init (storage : List EntOrder) : Reachable (NewController storage)
  | updateOrders {env : Env} {c c' : Controller} :
      Reachable c → updateOrders env c = .ok c' → Reachable c'
  | orderMarket {env : Env} {c c' : Controller} {side : SideType} {symbol : String}
      {size : Float64} {res : Except Error Order} :
      Reachable c → OrderMarket env c side symbol size = .ok (c', res) → Reachable c'
  | orderLimit {env : Env} {c c' : Controller} {side : SideType} {symbol : String}
      {size limit : Float64} {res : Except Error Order} :
      Reachable c → OrderLimit env c side symbol size limit = .ok (c', res) → Reachable c'
  | orderOCO {env : Env} {c c' : Controller} {side : SideType} {symbol : String}
      {size price stop stopLimit : Float64} {res : Except Error (List Order)} :
      Reachable c →
      OrderOCO env c side symbol size price stop stopLimit = .ok (c', res) → Reachable c'
  | cancel {env : Env} {c c' : Controller} {order : Order} {res : Option Error} :
      Reachable c → Cancel env c order = .ok (c', res) → Reachable c'

/-! ## Notions used to state the properties -/

/-- The price `calculateProfit` takes for a row of the history: the stop price of
a stop or stop-limit order, the `Price` field otherwise. -/
def EntOrder.executionPrice (r : EntOrder) : Float64 :=
  if r.Type_ = .StopLoss ∨ r.Type_ = .StopLossLimit then r.Stop else r.Price

/-- The price `calculateProfit` takes for the closing order, when there is one: a
stop or stop-limit order without stop price has none. -/
def Order.executionPrice (o : Order) : Option Float64 :=
  if o.Type_ = .StopLoss ∨ o.Type_ = .StopLossLimit then o.Stop else some o.Price

/-- The running `(quantity, averagePrice)` of the spec: each buy updates
`averagePrice = (buyQty·buyPrice + quantity·averagePrice) / (quantity + buyQty)`
and `quantity += buyQty`. -/
def specWalk : List (Float64 × Float64) → Float64 × Float64 → Float64 × Float64
  | [], acc => acc
  | (buyQty, buyPrice) :: rest, (quantity, averagePrice) =>
    specWalk rest
      (quantity + buyQty, (buyQty * buyPrice + quantity * averagePrice) / (quantity + buyQty))

/-- The weighted average cost of the spec over `(quantity, price)` buys in
chronological order. -/
def weightedAvgCost (buys : List (Float64 × Float64)) : Float64 :=
  (specWalk buys (0, 0)).2

/-- The `(quantity, price)` pairs of the history of an order, oldest first. -/
def buyHistory (rows : List EntOrder) (o : Order) : List (Float64 × Float64) :=
  (queryHistory rows o).map (fun r => (r.Quantity, r.executionPrice))

/-- The average price the loop of `calculateProfit` ends with. -/
def averagePrice (rows : List EntOrder) (o : Order) : Float64 :=
  (walk (queryHistory rows o) (0, 0)).2

/-- The controller over the same repository without the rows of local id `x`. -/
def withoutOrder (x : Nat) (c : Controller) : Controller :=
  { c with storage := c.storage.filter (fun r => decide (r.ID ≠ x)) }

/-- Whether an effect is about the order of local id `x`. -/
def Effect.concerns (x : Nat) : Effect → Bool
  | .exchangeOrder row => decide (row.ID = x)
  | .save id _ => decide (id = x)
  | .publish o _ => decide (o.ID = x)
  | _ => false

/-! ## The loops of `updateOrders`, one order at a time -/

/-- The order the first loop of `updateOrders` writes and collects for one open
order, if any. -/
def changeOf (env : Env) (order : EntOrder) : Option Order :=
  match env.exchange.Order order.Symbol order.ExchangeID with
  | .error _ => none
  | .ok excOrder =>
    if excOrder.Status = order.Status then none
    else if env.saveFails order.ID then none
    else some { excOrder with ID := order.ID }

/-- The effects of one iteration of the first loop of `updateOrders`. -/
def stepEffects (env : Env) (order : EntOrder) : List Effect :=
  match env.exchange.Order order.Symbol order.ExchangeID with
  | .error _ => [.exchangeOrder order]
  | .ok excOrder =>
    if excOrder.Status = order.Status then [.exchangeOrder order]
    else [.exchangeOrder order, .save order.ID (!env.saveFails order.ID)]

/-- What one iteration of the first loop of `updateOrders` (for `order`) does to
a row `r` of the repository. -/
def rowAfter (env : Env) (order : EntOrder) (r : EntOrder) : EntOrder :=
  match changeOf env order with
  | none => r
  | some excOrder =>
    if r.ID = order.ID then
      { r with UpdatedAt := excOrder.UpdatedAt, Status := excOrder.Status,
               Quantity := excOrder.Quantity, Price := excOrder.Price }
    else r

/-- The second loop of `updateOrders` on the results map alone: the final map and
the orders as they are published. -/
def attributeProfits (env : Env) (rows : List EntOrder) :
    List Order → (String → Option summary) →
      Except Crash ((String → Option summary) × List Order)
  | [], results => .ok (results, [])
  | o :: rest, results =>
    if o.Side = .Sell ∧ o.Status = .Filled then
      match calculateProfit rows (env.queryHistoryFails o.ID) o with
      | .error e => .error e
      | .ok (profitValue, profit, _) =>
        match attributeProfits env rows rest (recordResult results o.Symbol profitValue) with
        | .error e => .error e
        | .ok (results, outs) => .ok (results, { o with Profit := profit } :: outs)
    else
      match attributeProfits env rows rest results with
      | .error e => .error e
      | .ok (results, outs) => .ok (results, o :: outs)

/-- The rows of the repository after the first loop of `updateOrders` over
`orders`. -/
def rowsAfter (env : Env) (orders : List EntOrder) (rows : List EntOrder) : List EntOrder :=
  rows.map (fun r => orders.foldl (fun r order => rowAfter env order r) r)

/-- What a reconciliation cycle does to a row: an open row gets the change the
first loop decides for it, any other row stays. -/
def settle (env : Env) (r : EntOrder) : EntOrder :=
  if r.Status.isOpen then rowAfter env r r else r

/-- What a submitting operation may do to the repository and to the results:
rows are only added, ids stay distinct, the results change by at most one recorded
value, and the mutex is free again. -/
def Extends (c c' : Controller) : Prop :=
  c.storage <+: c'.storage ∧
  ((c.storage.map (fun r => r.ID)).Nodup → (c'.storage.map (fun r => r.ID)).Nodup) ∧
  (c'.Results = c.Results ∨
    ∃ symbol value, c'.Results = recordResult c.Results symbol value) ∧
  c'.mtx = false

/-- The order of the local ids is total. -/
instance idLE_isTotal : IsTotal EntOrder (fun a b => a.ID ≤ b.ID) :=
  ⟨fun a b => Nat.le_total a.ID b.ID⟩

/-- The order of the local ids is transitive. -/
instance idLE_isTrans : IsTrans EntOrder (fun a b => a.ID ≤ b.ID) :=
  ⟨fun _ _ _ h₁ h₂ => Nat.le_trans h₁ h₂⟩

/-! ## Concrete scenarios -/

/-- An exchange that rejects every request. -/
def idleExchange : Exchange :=
  { Order := fun _ _ => .error .exchange
    OrderMarket := fun _ _ _ => .error .exchange
    OrderLimit := fun _ _ _ _ => .error .exchange
    OrderOCO := fun _ _ _ _ _ _ => .error .exchange
    Cancel := fun _ => some .exchange }

/-- A run without repository failures against the given exchange. -/
def calmEnv (exchange : Exchange) : Env :=
  { exchange := exchange, queryOpenFails := false, queryHistoryFails := fun _ => false,
    saveFails := fun _ => false, createFails := fun _ => false }

/-- A row of symbol `BTCUSDT` with exchange id `100 + id`. -/
def btcRow (id : Nat) (side : SideType) (type : OrderType) (status : OrderStatusType)
    (price quantity : Float64) (updatedAt : Time) : EntOrder :=
  { ID := id, ExchangeID := 100 + id, Symbol := "BTCUSDT", Side := side, Type_ := type,
    Status := status, Price := price, Quantity := quantity, Stop := 0, GroupID := none,
    CreatedAt := updatedAt, UpdatedAt := updatedAt }

/-- An order of symbol `BTCUSDT` as the exchange reports it (no local id yet). -/
def btcOrder (exchangeID : Int) (side : SideType) (type : OrderType)
    (status : OrderStatusType) (price quantity : Float64) (stop : Option Float64)
    (updatedAt : Time) : Order :=
  { ID := 0, ExchangeID := exchangeID, Symbol := "BTCUSDT", Side := side, Type_ := type,
    Status := status, Price := price, Quantity := quantity, Stop := stop, GroupID := none,
    CreatedAt := updatedAt, UpdatedAt := updatedAt, Profit := 0 }

/-- Two filled buys: 1 unit at 10000, then 1 unit at 12000. -/
def twoBuys : List EntOrder :=
  [btcRow 1 .Buy .Market .Filled 10000 1 1, btcRow 2 .Buy .Market .Filled 12000 1 2]

/-- The closing sell of 2 units at 13000, local id 3. -/
def closingSell : Order :=
  { btcOrder 103 .Sell .Market .Filled 13000 2 none 3 with ID := 3 }

/-- A closing stop-limit sell of 2 units: limit price 9000, stop price 9500. -/
def stopSell : Order :=
  { btcOrder 103 .Sell .StopLossLimit .Filled 9000 2 (some 9500) 3 with ID := 3 }

/-- A new limit buy, local id 1. -/
def pendingRow : EntOrder := btcRow 1 .Buy .Limit .New 10000 1 1

/-- An exchange that reports the order of `pendingRow` as filled. -/
def reportingExchange : Exchange :=
  { idleExchange with
    Order := fun _ _ => .ok (btcOrder 101 .Buy .Limit .Filled 10000 1 none 2) }

/-- A run in which every repository update fails. -/
def failingSaveEnv : Env :=
  { calmEnv reportingExchange with saveFails := fun _ => true }

/-- The controller after a cycle whose only update failed. -/
def afterFailedSave : Controller :=
  { mtx := false, storage := [pendingRow], Results := fun _ => none,
    trace := [.lock, .exchangeOrder pendingRow, .save 1 false, .unlock] }

/-- The row of `pendingRow` once its fill is written. -/
def filledRow : EntOrder := { pendingRow with Status := .Filled, UpdatedAt := 2 }

/-- The order published for the fill of `pendingRow`. -/
def filledOrder : Order := { btcOrder 101 .Buy .Limit .Filled 10000 1 none 2 with ID := 1 }

/-- An exchange that accepts every cancel request and answers no status query. -/
def cancellingExchange : Exchange := { idleExchange with Cancel := fun _ => none }

/-- A run in which the query of the open orders fails. -/
def brokenQueryEnv : Env := { calmEnv idleExchange with queryOpenFails := true }

/-- An exchange answering an OCO request with two legs. -/
def ocoExchange : Exchange :=
  { idleExchange with
    OrderOCO := fun _ _ _ _ _ _ =>
      .ok [btcOrder 201 .Sell .Limit .New 13000 2 none 5,
           btcOrder 202 .Sell .StopLossLimit .New 9000 2 (some 9500) 5] }

/-- A run in which the second create of the operation fails. -/
def secondCreateFails : Env :=
  { calmEnv ocoExchange with createFails := fun i => decide (i = 1) }

/-- Two open limit buys, local ids 1 and 2. -/
def twoOpen : List EntOrder :=
  [btcRow 1 .Buy .Limit .New 10000 1 1, btcRow 2 .Buy .Limit .New 11000 1 1]

/-- An exchange whose status query fails for exchange id 101 and reports a fill
for every other order. -/
def flakyExchange : Exchange :=
  { idleExchange with
    Order := fun _ id =>
      if id = 101 then .error .exchange
      else .ok (btcOrder 102 .Buy .Limit .Filled 11000 1 none 2) }

/-- Two filled buys and an open sell of 2 units, local id 3. -/
def openPosition : List EntOrder :=
  twoBuys ++ [btcRow 3 .Sell .Limit .New 13000 2 3]

/-- An exchange that reports the sell of `openPosition` as filled at 13000. -/
def sellFilledExchange : Exchange :=
  { idleExchange with
    Order := fun _ _ => .ok (btcOrder 103 .Sell .Limit .Filled 13000 2 none 4) }

/-- An open stop-limit sell of 2 units, local id 3. -/
def stopRow : EntOrder := btcRow 3 .Sell .StopLossLimit .New 9000 2 3

/-- The fill of `stopRow` as an exchange reports it that leaves the stop price out. -/
def noStopSell : Order :=
  { btcOrder 103 .Sell .StopLossLimit .Filled 9000 2 none 4 with ID := 3 }

/-- An exchange that reports the sell of `stopRow` as filled, without stop price. -/
def noStopExchange : Exchange :=
  { idleExchange with
    Order := fun _ _ => .ok (btcOrder 103 .Sell .StopLossLimit .Filled 9000 2 none 4) }

/-! # Theorems -/

/-! ## Sorting and filtering -/

section Sorting

variable {α : Type} (r : α → α → Prop) [DecidableRel r]

theorem orderedInsert_of_forall_rel (a : α) (l : List α) (h : ∀ b ∈ l, r a b) :
    l.orderedInsert r a = a :: l := by
  cases l with
  | nil => rfl
  | cons b l => exact List.orderedInsert_of_le r l (h b (List.mem_cons_self _ _))

theorem filter_orderedInsert_of_neg (p : α → Bool) (a : α) (l : List α) (hp : p a = false) :
    (l.orderedInsert r a).filter p = l.filter p := by
  induction l with
  | nil => simp [hp]
  | cons b l ih =>
    by_cases hab : r a b
    · simp [List.orderedInsert, hab, hp]
    · simp only [List.orderedInsert, hab, if_false, List.filter_cons, ih]

theorem filter_orderedInsert_of_pos [IsTrans α r] (p : α → Bool) (a : α) (l : List α)
    (hl : l.Sorted r) (hp : p a = true) :
    (l.orderedInsert r a).filter p = (l.filter p).orderedInsert r a := by
  induction l with
  | nil => simp [hp]
  | cons b l ih =>
    have hl' : l.Sorted r := hl.of_cons
    by_cases hab : r a b
    · have hall : ∀ c ∈ (b :: l).filter p, r a c := by
        intro c hc
        have hc' : c ∈ b :: l := (List.mem_filter.mp hc).1
        rcases List.mem_cons.mp hc' with rfl | hcl
        · exact hab
        · exact IsTrans.trans _ _ _ hab (List.rel_of_sorted_cons hl c hcl)
      rw [orderedInsert_of_forall_rel r a _ hall, List.orderedInsert_of_le r l hab,
        List.filter_cons, hp]
      simp
    · by_cases hpb : p b = true
      · simp only [List.orderedInsert, hab, if_false, List.filter_cons, hpb, if_true, ih hl']
      · simp only [List.orderedInsert, hab, if_false, List.filter_cons, hpb, ih hl']
        simp

theorem insertionSort_filter [IsTrans α r] [IsTotal α r] (p : α → Bool) (l : List α) :
    (l.filter p).insertionSort r = (l.insertionSort r).filter p := by
  induction l with
  | nil => rfl
  | cons a l ih =>
    by_cases hp : p a = true
    · rw [List.filter_cons, if_pos hp, List.insertionSort, List.insertionSort, ih,
        filter_orderedInsert_of_pos r p a _ (List.sorted_insertionSort r l) hp]
    · have hp' : p a = false := by simpa using hp
      rw [List.filter_cons, if_neg hp, List.insertionSort, ih,
        filter_orderedInsert_of_neg r p a _ hp']

end Sorting

/-! ## The reconciliation loops -/

theorem updateRow_eq_map_rowAfter (env : Env) (order : EntOrder) (rows : List EntOrder)
    (excOrder : Order) (h : changeOf env order = some excOrder) :
    updateRow rows order.ID excOrder = rows.map (rowAfter env order) := by
  unfold updateRow
  congr 1
  funext r
  simp only [rowAfter, h]

theorem map_rowAfter_of_none (env : Env) (order : EntOrder) (rows : List EntOrder)
    (h : changeOf env order = none) : rows.map (rowAfter env order) = rows := by
  have : rowAfter env order = id := by
    funext r
    simp only [rowAfter, h, id]
  rw [this, List.map_id]

theorem rowsAfter_cons (env : Env) (order : EntOrder) (orders rows : List EntOrder) :
    rowsAfter env (order :: orders) rows = rowsAfter env orders (rows.map (rowAfter env order)) := by
  simp [rowsAfter, List.map_map, Function.comp_def]

theorem reconcile_eq (env : Env) (orders : List EntOrder) (c : Controller)
    (updatedOrders : List Order) :
    reconcile env orders c updatedOrders =
      ({ c with storage := rowsAfter env orders c.storage,
                trace := c.trace ++ orders.flatMap (stepEffects env) },
        updatedOrders ++ orders.filterMap (changeOf env)) := by
  induction orders generalizing c updatedOrders with
  | nil => simp [reconcile, rowsAfter]
  | cons order rest ih =>
    rw [rowsAfter_cons]
    cases hex : env.exchange.Order order.Symbol order.ExchangeID with
    | error err =>
      have hch : changeOf env order = none := by simp [changeOf, hex]
      simp [reconcile, hex, ih, stepEffects, hch, map_rowAfter_of_none]
    | ok excOrder =>
      by_cases hst : excOrder.Status = order.Status
      · have hch : changeOf env order = none := by simp [changeOf, hex, hst]
        simp [reconcile, hex, ih, stepEffects, hch, map_rowAfter_of_none, hst]
      · by_cases hsave : env.saveFails order.ID = true
        · have hch : changeOf env order = none := by simp [changeOf, hex, hst, hsave]
          simp [reconcile, hex, ih, stepEffects, hch, map_rowAfter_of_none, hst, hsave]
        · have hch : changeOf env order = some { excOrder with ID := order.ID } := by
            simp [changeOf, hex, hst, hsave]
          simp [reconcile, hex, ih, stepEffects, hch, hst, hsave,
            ← updateRow_eq_map_rowAfter env order c.storage _ hch]

theorem publishUpdates_eq (env : Env) (updatedOrders : List Order) (c : Controller) :
    publishUpdates env updatedOrders c =
      match attributeProfits env c.storage updatedOrders c.Results with
      | .error e => .error e
      | .ok (results, outs) =>
        .ok { c with Results := results,
                     trace := c.trace ++ outs.map (fun o => Effect.publish o false) } := by
  induction updatedOrders generalizing c with
  | nil => simp [publishUpdates, attributeProfits]
  | cons o rest ih =>
    by_cases hsell : o.Side = .Sell ∧ o.Status = .Filled
    · cases hp : calculateProfit c.storage (env.queryHistoryFails o.ID) o with
      | error e => simp [publishUpdates, attributeProfits, hsell, processTrade, hp]
      | ok v =>
        obtain ⟨profitValue, profit, err⟩ := v
        simp only [publishUpdates, attributeProfits, hsell, processTrade, hp, and_self, if_true, ih]
        cases attributeProfits env c.storage rest (recordResult c.Results o.Symbol profitValue) with
        | error e => rfl
        | ok w => simp
    · simp only [publishUpdates, attributeProfits, hsell, if_false, ih]
      cases attributeProfits env c.storage rest c.Results with
      | error e => rfl
      | ok w => simp

theorem updateOrders_eq (env : Env) (c : Controller) (hfree : c.mtx = false)
    (hquery : env.queryOpenFails = false) :
    updateOrders env c =
      match attributeProfits env (rowsAfter env (queryOpen c.storage) c.storage)
          ((queryOpen c.storage).filterMap (changeOf env)) c.Results with
      | .error e => .error e
      | .ok (results, outs) =>
        .ok { mtx := false,
              storage := rowsAfter env (queryOpen c.storage) c.storage,
              Results := results,
              trace := c.trace ++ [.lock] ++ (queryOpen c.storage).flatMap (stepEffects env) ++
                outs.map (fun o => Effect.publish o false) ++ [.unlock] } := by
  simp only [updateOrders, Controller.Lock, hfree, hquery, reconcile_eq, publishUpdates_eq]
  simp only [Bool.false_eq_true, if_false, List.nil_append]
  cases attributeProfits env (rowsAfter env (queryOpen c.storage) c.storage)
      ((queryOpen c.storage).filterMap (changeOf env)) c.Results with
  | error e => rfl
  | ok w => simp [Controller.Unlock]

theorem mem_queryOpen {rows : List EntOrder} {r : EntOrder} :
    r ∈ queryOpen rows ↔ r ∈ rows ∧ r.Status.isOpen = true := by
  simp [queryOpen, List.mem_insertionSort, List.mem_filter]

theorem queryOpen_perm (rows : List EntOrder) :
    (queryOpen rows).Perm (rows.filter (fun r => r.Status.isOpen)) :=
  List.perm_insertionSort _ _

theorem queryOpen_sorted (rows : List EntOrder) :
    List.Sorted (fun a b : EntOrder => a.ID ≤ b.ID) (queryOpen rows) :=
  List.sorted_insertionSort _ _

theorem queryOpen_ids_nodup {rows : List EntOrder}
    (hids : (rows.map (fun r => r.ID)).Nodup) :
    ((queryOpen rows).map (fun r => r.ID)).Nodup := by
  have hsub : ((rows.filter (fun r => r.Status.isOpen)).map (fun r => r.ID)).Nodup :=
    hids.sublist ((List.filter_sublist rows).map _)
  exact ((queryOpen_perm rows).map _).nodup_iff.mpr hsub

theorem eq_of_ID_eq {rows : List EntOrder} (hids : (rows.map (fun r => r.ID)).Nodup)
    {a b : EntOrder} (ha : a ∈ rows) (hb : b ∈ rows) (h : a.ID = b.ID) : a = b :=
  List.inj_on_of_nodup_map hids ha hb h

theorem rowAfter_ID (env : Env) (order r : EntOrder) : (rowAfter env order r).ID = r.ID := by
  unfold rowAfter
  split
  · rfl
  · split <;> rfl

theorem rowAfter_of_ne (env : Env) (order r : EntOrder) (h : order.ID ≠ r.ID) :
    rowAfter env order r = r := by
  unfold rowAfter
  split
  · rfl
  · rw [if_neg (fun h' => h h'.symm)]

theorem rowAfter_of_none (env : Env) (order r : EntOrder) (h : changeOf env order = none) :
    rowAfter env order r = r := by
  simp only [rowAfter, h]

theorem foldl_rowAfter_ID (env : Env) (orders : List EntOrder) (r : EntOrder) :
    (orders.foldl (fun r order => rowAfter env order r) r).ID = r.ID := by
  induction orders generalizing r with
  | nil => rfl
  | cons order rest ih => rw [List.foldl_cons, ih, rowAfter_ID]

theorem foldl_rowAfter_of_forall (env : Env) (orders : List EntOrder) (r : EntOrder)
    (h : ∀ order ∈ orders, order.ID ≠ r.ID ∨ changeOf env order = none) :
    orders.foldl (fun r order => rowAfter env order r) r = r := by
  induction orders with
  | nil => rfl
  | cons order rest ih =>
    have hstep : rowAfter env order r = r := by
      rcases h order (List.mem_cons_self _ _) with hne | hnone
      · exact rowAfter_of_ne env order r hne
      · exact rowAfter_of_none env order r hnone
    rw [List.foldl_cons, hstep]
    exact ih (fun o ho => h o (List.mem_cons_of_mem _ ho))

theorem foldl_rowAfter_of_mem (env : Env) (orders : List EntOrder) (r : EntOrder)
    (hnodup : (orders.map (fun r => r.ID)).Nodup) (hr : r ∈ orders) :
    orders.foldl (fun r order => rowAfter env order r) r = rowAfter env r r := by
  induction orders with
  | nil => cases hr
  | cons order rest ih =>
    rw [List.map_cons, List.nodup_cons] at hnodup
    rw [List.foldl_cons]
    rcases List.mem_cons.mp hr with rfl | hrest
    · apply foldl_rowAfter_of_forall
      intro o ho
      left
      rw [rowAfter_ID]
      intro h
      exact hnodup.1 (h ▸ List.mem_map_of_mem (fun r => r.ID) ho)
    · have hne : order.ID ≠ r.ID := by
        intro h
        exact hnodup.1 (h ▸ List.mem_map_of_mem (fun r => r.ID) hrest)
      rw [rowAfter_of_ne env order r hne]
      exact ih hnodup.2 hrest

theorem rowsAfter_queryOpen (env : Env) (rows : List EntOrder)
    (hids : (rows.map (fun r => r.ID)).Nodup) :
    rowsAfter env (queryOpen rows) rows = rows.map (settle env) := by
  unfold rowsAfter
  apply List.map_congr_left
  intro r hr
  unfold settle
  by_cases hopen : r.Status.isOpen = true
  · rw [if_pos hopen]
    exact foldl_rowAfter_of_mem env _ r (queryOpen_ids_nodup hids) (mem_queryOpen.mpr ⟨hr, hopen⟩)
  · rw [if_neg hopen]
    apply foldl_rowAfter_of_forall
    intro o ho
    left
    intro h
    have ho' := mem_queryOpen.mp ho
    have : o = r := eq_of_ID_eq hids ho'.1 hr h
    exact hopen (this ▸ ho'.2)

/-! ## Profit attribution -/

theorem walk_eq_specWalk (l : List EntOrder) (acc : Float64 × Float64)
    (hbuy : ∀ r ∈ l, r.Side = .Buy) :
    walk l acc = specWalk (l.map (fun r => (r.Quantity, r.executionPrice))) acc := by
  induction l generalizing acc with
  | nil => rfl
  | cons r rest ih =>
    obtain ⟨quantity, avgPrice⟩ := acc
    have hr : r.Side = .Buy := hbuy r (List.mem_cons_self _ _)
    have hrest : ∀ x ∈ rest, x.Side = .Buy := fun x hx => hbuy x (List.mem_cons_of_mem _ hx)
    simp only [walk, hr, if_true, List.map_cons, specWalk]
    rw [ih _ hrest]
    congr 2
    · simp only [EntOrder.executionPrice]
      rw [mul_comm avgPrice quantity, add_comm r.Quantity quantity]

theorem specWalk_closed_form (buys : List (Float64 × Float64)) (quantity averagePrice : Float64)
    (hq : 0 ≤ quantity) (hpos : ∀ b ∈ buys, 0 < b.1) (hne : buys ≠ []) :
    (specWalk buys (quantity, averagePrice)).2 =
      (quantity * averagePrice + (buys.map (fun b => b.1 * b.2)).sum) /
        (quantity + (buys.map (fun b => b.1)).sum) := by
  induction buys generalizing quantity averagePrice with
  | nil => exact absurd rfl hne
  | cons b rest ih =>
    obtain ⟨buyQty, buyPrice⟩ := b
    have hb : 0 < buyQty := hpos (buyQty, buyPrice) (List.mem_cons_self _ _)
    have hrest : ∀ x ∈ rest, 0 < x.1 := fun x hx => hpos x (List.mem_cons_of_mem _ hx)
    have hsum : quantity + buyQty ≠ 0 := by positivity
    simp only [specWalk, List.map_cons, List.sum_cons]
    by_cases hnil : rest = []
    · subst hnil
      simp only [specWalk, List.map_nil, List.sum_nil, add_zero]
      rw [add_comm (buyQty * buyPrice)]
    · rw [ih _ _ (by positivity) hrest hnil, mul_div_cancel₀ _ hsum]
      congr 1
      · ring
      · ring

theorem weightedAvgCost_eq_mean (buys : List (Float64 × Float64))
    (hpos : ∀ b ∈ buys, 0 < b.1) (hne : buys ≠ []) :
    weightedAvgCost buys =
      (buys.map (fun b => b.1 * b.2)).sum / (buys.map (fun b => b.1)).sum := by
  rw [weightedAvgCost, specWalk_closed_form buys 0 0 le_rfl hpos hne]
  simp

theorem queryHistory_sorted (rows : List EntOrder) (o : Order) :
    List.Sorted (fun a b : EntOrder => a.UpdatedAt ≤ b.UpdatedAt) (queryHistory rows o) := by
  haveI : IsTotal EntOrder (fun a b => a.UpdatedAt ≤ b.UpdatedAt) :=
    ⟨fun a b => le_total a.UpdatedAt b.UpdatedAt⟩
  haveI : IsTrans EntOrder (fun a b => a.UpdatedAt ≤ b.UpdatedAt) :=
    ⟨fun _ _ _ h₁ h₂ => le_trans h₁ h₂⟩
  exact List.sorted_insertionSort _ _

/-- Claim C1. When the history of the closing order `o` (the filled orders of its
symbol up to its update time, itself excluded, oldest first) holds only buys of
positive quantity, `calculateProfit` returns without error
`value = o.Quantity * sellPrice - o.Quantity * weightedAvgCost` and
`percent = value / (o.Quantity * weightedAvgCost)`, where `sellPrice` is the execution
price of `o` and `weightedAvgCost` is the running average of the spec folded over the
history in chronological order; for a history that is not empty this average is the
quantity-weighted mean of the buy prices `sum (q * p) / sum q`, and the history is
sorted by update time. -/
theorem calculateProfit_buys_then_sell (rows : List EntOrder) (o : Order) (sellPrice : Float64)
    (hbuys : ∀ r ∈ queryHistory rows o, r.Side = .Buy ∧ 0 < r.Quantity)
    (hsell : o.executionPrice = some sellPrice) :
    calculateProfit rows false o =
        .ok (o.Quantity * sellPrice - o.Quantity * weightedAvgCost (buyHistory rows o),
             (o.Quantity * sellPrice - o.Quantity * weightedAvgCost (buyHistory rows o)) /
               (o.Quantity * weightedAvgCost (buyHistory rows o)), none) ∧
    (buyHistory rows o ≠ [] →
      weightedAvgCost (buyHistory rows o) =
        ((buyHistory rows o).map (fun b => b.1 * b.2)).sum /
          ((buyHistory rows o).map (fun b => b.1)).sum) ∧
    List.Sorted (fun a b : EntOrder => a.UpdatedAt ≤ b.UpdatedAt) (queryHistory rows o) := by
  refine ⟨?_, ?_, queryHistory_sorted rows o⟩
  · have hw : (walk (queryHistory rows o) (0, 0)).2 = weightedAvgCost (buyHistory rows o) := by
      rw [walk_eq_specWalk _ _ (fun r hr => (hbuys r hr).1)]
      rfl
    unfold Order.executionPrice at hsell
    by_cases ht : o.Type_ = .StopLoss ∨ o.Type_ = .StopLossLimit
    · rw [if_pos ht] at hsell
      simp only [calculateProfit, hw, ht, hsell, if_true]
      simp
    · rw [if_neg ht] at hsell
      cases hsell
      simp only [calculateProfit, hw, ht, if_false]
      simp
  · intro hne
    apply weightedAvgCost_eq_mean _ _ hne
    intro b hb
    simp only [buyHistory, List.mem_map] at hb
    obtain ⟨r, hr, rfl⟩ := hb
    exact (hbuys r hr).2

/-- Witness of claim C1: buys 1 @ 10000 and 1 @ 12000, sell 2 @ 13000 gives value 4000
and percent 4000/22000. -/
theorem calculateProfit_buys_then_sell_witness :
    (∀ r ∈ queryHistory twoBuys closingSell, r.Side = .Buy ∧ 0 < r.Quantity) ∧
    closingSell.executionPrice = some 13000 ∧
    calculateProfit twoBuys false closingSell = .ok (4000, 4000 / 22000, none) := by
  refine ⟨by decide, by decide, ?_⟩
  rw [(calculateProfit_buys_then_sell twoBuys closingSell 13000 (by decide) (by decide)).1]
  have hcost : weightedAvgCost (buyHistory twoBuys closingSell) = 11000 := by
    simp [weightedAvgCost, buyHistory, queryHistory, twoBuys, closingSell, btcRow, btcOrder,
      specWalk, EntOrder.executionPrice]
    norm_num
  rw [hcost]
  norm_num [closingSell, btcOrder]

theorem foldl_add_eq_sum (l : List Float64) (a : Float64) :
    l.foldl (fun acc value => acc + value) a = a + l.sum := by
  induction l generalizing a with
  | nil => simp
  | cons x xs ih => simp [ih, add_assoc]

/-- Claim C9. `Payoff` is exactly 0 when `Win` or `Lose` is empty, whatever the other
sequence holds, and otherwise `(sum Win / len Win) / |sum Lose / len Lose|`. -/
theorem Payoff_spec (s : summary) :
    s.Payoff =
      if s.Win = [] ∨ s.Lose = [] then 0
      else (s.Win.sum / (s.Win.length : Float64)) / |s.Lose.sum / (s.Lose.length : Float64)| := by
  simp [summary.Payoff, foldl_add_eq_sum]

/-- Claim C5. For a closing order of type stop-loss or stop-loss-limit whose stop
price is present, `calculateProfit` computes
`value = quantity * stopPrice - quantity * averagePrice` from the stop price and not
from the `Price` field; for every other order type it uses the `Price` field. -/
theorem calculateProfit_execution_price (rows : List EntOrder) (o : Order) (stop : Float64) :
    ((o.Type_ = .StopLoss ∨ o.Type_ = .StopLossLimit) → o.Stop = some stop →
      calculateProfit rows false o =
        .ok (o.Quantity * stop - o.Quantity * averagePrice rows o,
             (o.Quantity * stop - o.Quantity * averagePrice rows o) /
               (o.Quantity * averagePrice rows o), none)) ∧
    (¬ (o.Type_ = .StopLoss ∨ o.Type_ = .StopLossLimit) →
      calculateProfit rows false o =
        .ok (o.Quantity * o.Price - o.Quantity * averagePrice rows o,
             (o.Quantity * o.Price - o.Quantity * averagePrice rows o) /
               (o.Quantity * averagePrice rows o), none)) := by
  constructor
  · intro ht hs
    simp [calculateProfit, averagePrice, ht, hs]
  · intro ht
    simp [calculateProfit, averagePrice, ht]

/-- Witness of claim C5: a stop-limit sell with limit price 9000 and stop price 9500
after buys at average 11000 realizes 2 * 9500 - 2 * 11000 = -3000; a market sell at
13000 realizes 4000 from its `Price`. -/
theorem calculateProfit_execution_price_witness :
    (stopSell.Type_ = .StopLoss ∨ stopSell.Type_ = .StopLossLimit) ∧
    stopSell.Stop = some 9500 ∧ stopSell.Price = 9000 ∧
    calculateProfit twoBuys false stopSell = .ok (-3000, -3000 / 22000, none) ∧
    ¬ (closingSell.Type_ = .StopLoss ∨ closingSell.Type_ = .StopLossLimit) ∧
    calculateProfit twoBuys false closingSell = .ok (4000, 4000 / 22000, none) := by
  have havg : ∀ o : Order, o.Symbol = "BTCUSDT" → o.UpdatedAt = 3 → o.ID = 3 →
      averagePrice twoBuys o = 11000 := by
    intro o h₁ h₂ h₃
    simp [averagePrice, queryHistory, twoBuys, btcRow, walk, h₁, h₂, h₃]
    norm_num
  refine ⟨by decide, rfl, rfl, ?_, by decide, ?_⟩
  · rw [(calculateProfit_execution_price twoBuys stopSell 9500).1 (by decide) rfl,
      havg stopSell rfl rfl rfl]
    norm_num [stopSell, btcOrder]
  · rw [(calculateProfit_execution_price twoBuys closingSell 0).2 (by decide),
      havg closingSell rfl rfl rfl]
    norm_num [closingSell, btcOrder]

/-- Claim C10 (the code at the failing input). When the query of the open orders
fails, `updateOrders` releases the mutex explicitly and again through the deferred
`Unlock`: the second release hits an unheld mutex, a fatal error of the Go run time. -/
theorem updateOrders_query_failure (env : Env) (c : Controller)
    (hfree : c.mtx = false) (hfail : env.queryOpenFails = true) :
    updateOrders env c = .error .unlockOfUnlockedMutex := by
  simp [updateOrders, Controller.Lock, Controller.Unlock, hfree, hfail]

/-- Witness of claim C10: a fresh controller and a run whose open-orders query
fails. -/
theorem updateOrders_query_failure_witness :
    (NewController [pendingRow]).mtx = false ∧ brokenQueryEnv.queryOpenFails = true ∧
    updateOrders brokenQueryEnv (NewController [pendingRow]) =
      .error .unlockOfUnlockedMutex :=
  ⟨rfl, rfl, updateOrders_query_failure brokenQueryEnv (NewController [pendingRow]) rfl rfl⟩

/-! ## What a reconciliation cycle changes and publishes -/

theorem changeOf_eq_some {env : Env} {order : EntOrder} {u : Order}
    (h : changeOf env order = some u) :
    ∃ excOrder, env.exchange.Order order.Symbol order.ExchangeID = .ok excOrder ∧
      excOrder.Status ≠ order.Status ∧ env.saveFails order.ID = false ∧
      u = { excOrder with ID := order.ID } := by
  unfold changeOf at h
  split at h
  · cases h
  · rename_i excOrder hex
    split at h
    · cases h
    · rename_i hst
      split at h
      · cases h
      · rename_i hsave
        refine ⟨excOrder, hex, hst, by simpa using hsave, ?_⟩
        cases h
        rfl

theorem changeOf_ID {env : Env} {order : EntOrder} {u : Order}
    (h : changeOf env order = some u) : u.ID = order.ID := by
  obtain ⟨_, _, _, _, rfl⟩ := changeOf_eq_some h
  rfl

theorem settle_ID (env : Env) (r : EntOrder) : (settle env r).ID = r.ID := by
  unfold settle
  split
  · exact rowAfter_ID env r r
  · rfl

theorem settle_status_ne {env : Env} {r : EntOrder} :
    (settle env r).Status ≠ r.Status ↔
      r.Status.isOpen = true ∧ ∃ u, changeOf env r = some u := by
  unfold settle rowAfter
  constructor
  · intro h
    by_cases hopen : r.Status.isOpen = true
    · refine ⟨hopen, ?_⟩
      cases hch : changeOf env r with
      | none => simp [hopen, hch] at h
      | some u => exact ⟨u, rfl⟩
    · simp [hopen] at h
  · rintro ⟨hopen, u, hu⟩
    obtain ⟨excOrder, _, hst, _, rfl⟩ := changeOf_eq_some hu
    simp [hopen, hu, hst]

theorem calculateProfit_of_fails (rows : List EntOrder) (o : Order) :
    calculateProfit rows true o = .ok (0, 0, some .storage) := by
  simp [calculateProfit]

theorem calculateProfit_of_price (rows : List EntOrder) (o : Order) (price : Float64)
    (h : o.executionPrice = some price) :
    calculateProfit rows false o =
      .ok (o.Quantity * price - o.Quantity * averagePrice rows o,
           (o.Quantity * price - o.Quantity * averagePrice rows o) /
             (o.Quantity * averagePrice rows o), none) := by
  unfold Order.executionPrice at h
  by_cases ht : o.Type_ = .StopLoss ∨ o.Type_ = .StopLossLimit
  · rw [if_pos ht] at h
    simp only [calculateProfit, averagePrice, ht, h, if_true]
    simp
  · rw [if_neg ht] at h
    cases h
    simp only [calculateProfit, averagePrice, ht, if_false]
    simp

theorem calculateProfit_returns (rows : List EntOrder) (fails : Bool) (o : Order)
    (h : o.executionPrice ≠ none) :
    ∃ value percent err, calculateProfit rows fails o = .ok (value, percent, err) := by
  cases fails with
  | true => exact ⟨_, _, _, calculateProfit_of_fails rows o⟩
  | false =>
    obtain ⟨price, hprice⟩ := Option.ne_none_iff_exists'.mp h
    exact ⟨_, _, _, calculateProfit_of_price rows o price hprice⟩

theorem attributeProfits_returns (env : Env) (rows : List EntOrder) (updated : List Order)
    (results : String → Option summary)
    (h : ∀ o ∈ updated, o.Side = .Sell → o.Status = .Filled → o.executionPrice ≠ none) :
    ∃ results' outs, attributeProfits env rows updated results = .ok (results', outs) := by
  induction updated generalizing results with
  | nil => exact ⟨_, _, rfl⟩
  | cons o rest ih =>
    have hrest : ∀ o ∈ rest, o.Side = .Sell → o.Status = .Filled → o.executionPrice ≠ none :=
      fun x hx => h x (List.mem_cons_of_mem _ hx)
    by_cases hsell : o.Side = .Sell ∧ o.Status = .Filled
    · obtain ⟨value, percent, err, hp⟩ := calculateProfit_returns rows (env.queryHistoryFails o.ID) o
        (h o (List.mem_cons_self _ _) hsell.1 hsell.2)
      obtain ⟨results', outs, hrec⟩ := ih (recordResult results o.Symbol value) hrest
      exact ⟨results', { o with Profit := percent } :: outs,
        by simp only [attributeProfits, hsell, and_self, if_true, hp, hrec]⟩
    · obtain ⟨results', outs, hrec⟩ := ih results hrest
      exact ⟨results', o :: outs, by simp only [attributeProfits, hsell, if_false, hrec]⟩

theorem attributeProfits_outs {env : Env} {rows : List EntOrder} {updated : List Order}
    {results results' : String → Option summary} {outs : List Order}
    (h : attributeProfits env rows updated results = .ok (results', outs)) :
    outs.map (fun o => o.ID) = updated.map (fun o => o.ID) ∧
    ∀ o ∈ outs, o.Side = .Sell → o.Status = .Filled →
      ∃ value percent err,
        calculateProfit rows (env.queryHistoryFails o.ID) o = .ok (value, percent, err) ∧
        o.Profit = percent := by
  induction updated generalizing results results' outs with
  | nil =>
    simp only [attributeProfits, Except.ok.injEq, Prod.mk.injEq] at h
    obtain ⟨_, rfl⟩ := h
    simp
  | cons o rest ih =>
    by_cases hsell : o.Side = .Sell ∧ o.Status = .Filled
    · simp only [attributeProfits, hsell, and_self, if_true] at h
      cases hp : calculateProfit rows (env.queryHistoryFails o.ID) o with
      | error e => simp [hp] at h
      | ok v =>
        obtain ⟨value, percent, err⟩ := v
        simp only [hp] at h
        cases hrec : attributeProfits env rows rest (recordResult results o.Symbol value) with
        | error e => simp [hrec] at h
        | ok w =>
          obtain ⟨res2, outs2⟩ := w
          simp only [hrec, Except.ok.injEq, Prod.mk.injEq] at h
          obtain ⟨rfl, rfl⟩ := h
          obtain ⟨hids, hprof⟩ := ih hrec
          refine ⟨by simp [hids], ?_⟩
          intro x hx
          rcases List.mem_cons.mp hx with rfl | hx'
          · intro _ _
            exact ⟨value, percent, err, hp, rfl⟩
          · exact hprof x hx'
    · simp only [attributeProfits, hsell, if_false] at h
      cases hrec : attributeProfits env rows rest results with
      | error e => simp [hrec] at h
      | ok w =>
        obtain ⟨res2, outs2⟩ := w
        simp only [hrec, Except.ok.injEq, Prod.mk.injEq] at h
        obtain ⟨rfl, rfl⟩ := h
        obtain ⟨hids, hprof⟩ := ih hrec
        refine ⟨by simp [hids], ?_⟩
        intro x hx
        rcases List.mem_cons.mp hx with rfl | hx'
        · intro h1 h2
          exact absurd ⟨h1, h2⟩ hsell
        · exact hprof x hx'

theorem stepEffects_not_publish (env : Env) (order : EntOrder) :
    ∀ e ∈ stepEffects env order, e.isPublish = false := by
  intro e he
  unfold stepEffects at he
  split at he
  · simp at he; subst he; rfl
  · split at he
    · simp at he; subst he; rfl
    · simp at he
      rcases he with rfl | rfl <;> rfl

theorem changed_ids_sorted (env : Env) (rows : List EntOrder)
    (hids : (rows.map (fun r => r.ID)).Nodup) :
    List.Sorted (· < ·) (((queryOpen rows).filterMap (changeOf env)).map (fun o => o.ID)) := by
  have hsorted : List.Sorted (· < ·) ((queryOpen rows).map (fun r => r.ID)) := by
    have hle : List.Sorted (· ≤ ·) ((queryOpen rows).map (fun r => r.ID)) := by
      have := queryOpen_sorted rows
      exact List.pairwise_map.mpr this
    exact hle.lt_of_le (queryOpen_ids_nodup hids)
  have hsub : List.Sublist (((queryOpen rows).filterMap (changeOf env)).map (fun o => o.ID))
      ((queryOpen rows).map (fun r => r.ID)) := by
    generalize queryOpen rows = l
    induction l with
    | nil => simp
    | cons a l ih =>
      cases hch : changeOf env a with
      | none =>
        rw [List.filterMap_cons_none hch, List.map_cons]
        exact ih.cons _
      | some u =>
        rw [List.filterMap_cons_some hch, List.map_cons, List.map_cons, changeOf_ID hch]
        exact ih.cons₂ _
  exact hsorted.sublist hsub

theorem mem_changes {env : Env} {rows : List EntOrder} {id : Nat} :
    id ∈ ((queryOpen rows).filterMap (changeOf env)).map (fun o => o.ID) ↔
      ∃ r ∈ rows, r.ID = id ∧ r.Status.isOpen = true ∧ ∃ u, changeOf env r = some u := by
  simp only [List.mem_map, List.mem_filterMap]
  constructor
  · rintro ⟨u, ⟨r, hr, hu⟩, rfl⟩
    have hr' := mem_queryOpen.mp hr
    exact ⟨r, hr'.1, (changeOf_ID hu).symm, hr'.2, u, hu⟩
  · rintro ⟨r, hr, rfl, hopen, u, hu⟩
    exact ⟨u, ⟨r, mem_queryOpen.mpr ⟨hr, hopen⟩, hu⟩, changeOf_ID hu⟩

/-- What a reconciliation cycle publishes when profit attribution meets no nil stop
price.  Take a reconciliation cycle that starts with the mutex free
on a repository with distinct local ids, whose query of the open orders succeeds and
in which the exchange reports every filled sell of stop type with its stop price.
The cycle returns and its actions are: the lock, the batch of exchange queries and
repository updates (no publish among them), then one `Publish(order, false)` per item
of `outs`, then the unlock.  The local ids of `outs` are strictly ascending and are
exactly the local ids of the rows whose persisted status changed, so every changed
order is published exactly once, after the whole batch, with its local id.  A
published filled sell carries as `Profit` the percent `calculateProfit` returns for it
on the repository after the batch, and `Profit = 0` when the history lookup fails. -/
theorem updateOrders_publishes_changes (env : Env) (c : Controller)
    (hfree : c.mtx = false) (hquery : env.queryOpenFails = false)
    (hids : (c.storage.map (fun r => r.ID)).Nodup)
    (hstop : ∀ r ∈ c.storage, ∀ o, env.exchange.Order r.Symbol r.ExchangeID = .ok o →
      o.Side = .Sell → o.Status = .Filled → o.executionPrice ≠ none) :
    ∃ (c' : Controller) (batch : List Effect) (outs : List Order),
      updateOrders env c = .ok c' ∧
      c'.trace = c.trace ++ [.lock] ++ batch ++
        outs.map (fun o => Effect.publish o false) ++ [.unlock] ∧
      (∀ e ∈ batch, e.isPublish = false) ∧
      List.Sorted (· < ·) (outs.map (fun o => o.ID)) ∧
      (∀ id, id ∈ outs.map (fun o => o.ID) ↔
        ∃ r ∈ c.storage, ∃ r' ∈ c'.storage, r.ID = id ∧ r'.ID = id ∧ r'.Status ≠ r.Status) ∧
      (∀ o ∈ outs, o.Side = .Sell → o.Status = .Filled →
        ∃ value percent err,
          calculateProfit c'.storage (env.queryHistoryFails o.ID) o = .ok (value, percent, err) ∧
          o.Profit = percent ∧ (env.queryHistoryFails o.ID = true → o.Profit = 0)) := by
  have hret : ∀ o ∈ (queryOpen c.storage).filterMap (changeOf env),
      o.Side = .Sell → o.Status = .Filled → o.executionPrice ≠ none := by
    intro u hu
    obtain ⟨r, hr, hch⟩ := List.mem_filterMap.mp hu
    obtain ⟨excOrder, hex, _, _, rfl⟩ := changeOf_eq_some hch
    exact hstop r (mem_queryOpen.mp hr).1 excOrder hex
  obtain ⟨results', outs, hattr⟩ := attributeProfits_returns env
    (rowsAfter env (queryOpen c.storage) c.storage) _ c.Results hret
  obtain ⟨houts, hprofit⟩ := attributeProfits_outs hattr
  have hrun := updateOrders_eq env c hfree hquery
  rw [hattr] at hrun
  refine ⟨_, (queryOpen c.storage).flatMap (stepEffects env), outs, hrun, rfl, ?_, ?_, ?_, ?_⟩
  · intro e he
    obtain ⟨order, _, heo⟩ := List.mem_flatMap.mp he
    exact stepEffects_not_publish env order e heo
  · rw [houts]
    exact changed_ids_sorted env c.storage hids
  · intro id
    rw [houts, mem_changes]
    simp only [rowsAfter_queryOpen env c.storage hids, List.mem_map]
    constructor
    · rintro ⟨r, hr, rfl, hopen, hu⟩
      exact ⟨r, hr, settle env r, ⟨r, hr, rfl⟩, rfl, settle_ID env r,
        settle_status_ne.mpr ⟨hopen, hu⟩⟩
    · rintro ⟨r, hr, r', ⟨r0, hr0, rfl⟩, rfl, hid, hne⟩
      have h0 : r0 = r := eq_of_ID_eq hids hr0 hr (by rw [← hid, settle_ID])
      subst h0
      obtain ⟨hopen, hu⟩ := settle_status_ne.mp hne
      exact ⟨r0, hr, rfl, hopen, hu⟩
  · intro o ho hside hstatus
    obtain ⟨value, percent, err, hp, hpercent⟩ := hprofit o ho hside hstatus
    refine ⟨value, percent, err, hp, hpercent, ?_⟩
    intro hfails
    rw [hfails, calculateProfit_of_fails] at hp
    cases hp
    exact hpercent

/-- The cycle on two filled buys and an open sell the exchange reports as filled
meets the conditions of `updateOrders_publishes_changes`. -/
theorem updateOrders_publishes_changes_witness :
    (NewController openPosition).mtx = false ∧
    (calmEnv sellFilledExchange).queryOpenFails = false ∧
    ((NewController openPosition).storage.map (fun r => r.ID)).Nodup ∧
    ∃ (c' : Controller) (batch : List Effect) (outs : List Order),
      updateOrders (calmEnv sellFilledExchange) (NewController openPosition) = .ok c' ∧
      c'.trace = [.lock] ++ batch ++ outs.map (fun o => Effect.publish o false) ++ [.unlock] ∧
      (∀ e ∈ batch, e.isPublish = false) ∧
      List.Sorted (· < ·) (outs.map (fun o => o.ID)) := by
  refine ⟨rfl, rfl, by decide, ?_⟩
  obtain ⟨c', batch, outs, hrun, htrace, hbatch, hsorted, -, -⟩ :=
    updateOrders_publishes_changes (calmEnv sellFilledExchange) (NewController openPosition)
      rfl rfl (by decide)
      (by
        intro r _ o ho _ _
        simp only [calmEnv, sellFilledExchange, Except.ok.injEq] at ho
        subst ho
        decide)
  exact ⟨c', batch, outs, hrun, by simpa [NewController] using htrace, hbatch, hsorted⟩

/-- The cycle on two filled buys and an open sell the exchange reports as filled at
13000 writes the fill, records the value 4000 for the symbol and then publishes the
order with its local id and `Profit = 4000 / 22000`. -/
theorem updateOrders_publishes_filled_sell :
    updateOrders (calmEnv sellFilledExchange) (NewController openPosition) =
      .ok { mtx := false,
            storage := twoBuys ++
              [{ btcRow 3 .Sell .Limit .New 13000 2 3 with Status := .Filled, UpdatedAt := 4 }],
            Results := recordResult (fun _ => none) "BTCUSDT" 4000,
            trace := [.lock, .exchangeOrder (btcRow 3 .Sell .Limit .New 13000 2 3),
              .save 3 true,
              .publish { btcOrder 103 .Sell .Limit .Filled 13000 2 none 4 with
                ID := 3, Profit := 4000 / 22000 } false,
              .unlock] } := by
  have hp : calculateProfit
      (twoBuys ++
        [{ btcRow 3 .Sell .Limit .New 13000 2 3 with Status := .Filled, UpdatedAt := 4 }])
      false { btcOrder 103 .Sell .Limit .Filled 13000 2 none 4 with ID := 3 } =
      .ok (4000, 4000 / 22000, none) := by
    simp [calculateProfit, queryHistory, twoBuys, btcRow, btcOrder, walk,
      List.insertionSort, List.orderedInsert]
    norm_num
  have hrec : reconcile (calmEnv sellFilledExchange) (queryOpen openPosition)
      { mtx := true, storage := openPosition, Results := fun _ => none, trace := [.lock] } [] =
      ({ mtx := true,
         storage := twoBuys ++
           [{ btcRow 3 .Sell .Limit .New 13000 2 3 with Status := .Filled, UpdatedAt := 4 }],
         Results := fun _ => none,
         trace := [.lock, .exchangeOrder (btcRow 3 .Sell .Limit .New 13000 2 3),
           .save 3 true] },
       [{ btcOrder 103 .Sell .Limit .Filled 13000 2 none 4 with ID := 3 }]) := rfl
  simp only [updateOrders, Controller.Lock, NewController, calmEnv, Bool.false_eq_true,
    if_false, List.nil_append]
  have hrec' := hrec
  simp only [calmEnv] at hrec'
  rw [hrec']
  simp only [publishUpdates, processTrade]
  have hp' := hp
  simp only [btcOrder] at hp' ⊢
  simp [hp', Controller.Unlock]

/-- Claim C7 (the code at the failing input). The exchange reports an open stop-limit
sell as filled with a nil stop price: the first loop of `updateOrders` writes the
status change and collects the order, then the second loop ends in the nil
dereference of `calculateProfit` before any `Publish`, and so does the cycle: the
order whose status changed is never published. -/
theorem updateOrders_crash_leaves_change_unpublished :
    reconcile (calmEnv noStopExchange) (queryOpen [stopRow])
        { mtx := true, storage := [stopRow], Results := fun _ => none, trace := [.lock] } [] =
      ({ mtx := true, storage := [{ stopRow with Status := .Filled, UpdatedAt := 4 }],
         Results := fun _ => none,
         trace := [.lock, .exchangeOrder stopRow, .save 3 true] }, [noStopSell]) ∧
    publishUpdates (calmEnv noStopExchange) [noStopSell]
        { mtx := true, storage := [{ stopRow with Status := .Filled, UpdatedAt := 4 }],
          Results := fun _ => none,
          trace := [.lock, .exchangeOrder stopRow, .save 3 true] } =
      .error .nilPointerDereference ∧
    updateOrders (calmEnv noStopExchange) (NewController [stopRow]) =
      .error .nilPointerDereference :=
  ⟨rfl, rfl, rfl⟩

/-! ## Two reconciliation cycles in a row -/

theorem updateOrders_of_queryOpenFails (env : Env) (c : Controller)
    (hfree : c.mtx = false) (hfail : env.queryOpenFails = true) :
    updateOrders env c = .error .unlockOfUnlockedMutex := by
  simp [updateOrders, Controller.Lock, Controller.Unlock, hfree, hfail]

theorem updateOrders_ok_inv {env : Env} {c c' : Controller}
    (h : updateOrders env c = .ok c') : c.mtx = false ∧ env.queryOpenFails = false := by
  by_cases hfree : c.mtx = false
  · refine ⟨hfree, ?_⟩
    by_cases hq : env.queryOpenFails = true
    · rw [updateOrders_of_queryOpenFails env c hfree hq] at h
      cases h
    · simpa using hq
  · have hheld : c.mtx = true := by simpa using hfree
    simp [updateOrders, Controller.Lock, hheld] at h

theorem settle_settled (env : Env) (r : EntOrder) (excOrder : Order)
    (hex : env.exchange.Order (settle env r).Symbol (settle env r).ExchangeID = .ok excOrder)
    (hne : excOrder.Status ≠ (settle env r).Status)
    (hopen : (settle env r).Status.isOpen = true) :
    env.saveFails r.ID = true := by
  unfold settle at hex hne hopen
  by_cases ho : r.Status.isOpen = true
  · simp only [ho, if_true] at hex hne hopen
    cases hch : changeOf env r with
    | none =>
      rw [rowAfter_of_none env r r hch] at hex hne
      unfold changeOf at hch
      rw [hex] at hch
      simp only [hne, if_false] at hch
      by_contra hsave
      simp [hsave] at hch
    | some u =>
      obtain ⟨exc0, hex0, _, _, rfl⟩ := changeOf_eq_some hch
      exfalso
      simp only [rowAfter, hch, if_true] at hex hne
      rw [hex0] at hex
      cases hex
      exact hne rfl
  · simp only [ho] at hopen
    simp at hopen
    exact absurd hopen ho

theorem stepEffects_of_changeOf_none {env : Env} {order : EntOrder}
    (h : changeOf env order = none) :
    stepEffects env order = [.exchangeOrder order] ∨
      (stepEffects env order = [.exchangeOrder order, .save order.ID false] ∧
        env.saveFails order.ID = true ∧
        ∃ excOrder, env.exchange.Order order.Symbol order.ExchangeID = .ok excOrder ∧
          excOrder.Status ≠ order.Status) := by
  unfold changeOf at h
  unfold stepEffects
  cases hex : env.exchange.Order order.Symbol order.ExchangeID with
  | error err => left; rfl
  | ok excOrder =>
    rw [hex] at h
    by_cases hst : excOrder.Status = order.Status
    · left; simp [hst]
    · right
      simp only [hst, if_false] at h
      have hsave : env.saveFails order.ID = true := by
        by_contra hs
        simp [hs] at h
      simp [hst, hsave]

/-- Claim C2 (amended). On a repository with distinct local ids, let a first cycle
return, and let the next cycle find its query of the open orders succeeding and the
same answers of the exchange to the status queries, with every repository update
that failed in the first cycle failing again (in particular when none failed).  Then
the second cycle returns, leaves the
repository and the results unchanged, publishes nothing, and its only repository
writes are failing retries of updates that failed in the first cycle: none at all
when no update failed in the first cycle. -/
theorem updateOrders_idempotent (env₁ env₂ : Env) (c c₁ : Controller)
    (hids : (c.storage.map (fun r => r.ID)).Nodup)
    (hrun : updateOrders env₁ c = .ok c₁)
    (hsame : env₂.exchange.Order = env₁.exchange.Order)
    (hfaults : ∀ id, env₁.saveFails id = true → env₂.saveFails id = true)
    (hquery : env₂.queryOpenFails = false) :
    ∃ (c₂ : Controller) (ev : List Effect),
      updateOrders env₂ c₁ = .ok c₂ ∧
      c₂.storage = c₁.storage ∧ c₂.Results = c₁.Results ∧ c₂.trace = c₁.trace ++ ev ∧
      (∀ e ∈ ev, e.isPublish = false) ∧
      (∀ e ∈ ev, e.isWrite = true →
        ∃ id, e = .save id false ∧ env₁.saveFails id = true) := by
  obtain ⟨hfree, hq₁⟩ := updateOrders_ok_inv hrun
  have h₁ := updateOrders_eq env₁ c hfree hq₁
  rw [hrun] at h₁
  cases hattr : attributeProfits env₁ (rowsAfter env₁ (queryOpen c.storage) c.storage)
      ((queryOpen c.storage).filterMap (changeOf env₁)) c.Results with
  | error e => rw [hattr] at h₁; cases h₁
  | ok w =>
    obtain ⟨results, outs⟩ := w
    rw [hattr] at h₁
    simp only [Except.ok.injEq] at h₁
    have hst : c₁.storage = c.storage.map (settle env₁) := by
      rw [h₁, rowsAfter_queryOpen env₁ c.storage hids]
    have hfree₁ : c₁.mtx = false := by rw [h₁]
    have hnone : ∀ r' ∈ queryOpen c₁.storage,
        changeOf env₂ r' = none ∧ ∃ r, r' = settle env₁ r := by
      intro r' hr'
      obtain ⟨hmem, hopen⟩ := mem_queryOpen.mp hr'
      rw [hst] at hmem
      obtain ⟨r, _, rfl⟩ := List.mem_map.mp hmem
      refine ⟨?_, r, rfl⟩
      unfold changeOf
      rw [hsame]
      cases hex : env₁.exchange.Order (settle env₁ r).Symbol (settle env₁ r).ExchangeID with
      | error err => rfl
      | ok excOrder =>
        by_cases hne : excOrder.Status = (settle env₁ r).Status
        · simp [hne]
        · have hs := hfaults _ (settle_settled env₁ r excOrder hex hne hopen)
          rw [← settle_ID env₁ r] at hs
          simp [hne, hs]
    have hU : (queryOpen c₁.storage).filterMap (changeOf env₂) = [] := by
      rw [List.filterMap_eq_nil_iff]
      exact fun r' hr' => (hnone r' hr').1
    have hrows : rowsAfter env₂ (queryOpen c₁.storage) c₁.storage = c₁.storage := by
      unfold rowsAfter
      conv_rhs => rw [← List.map_id c₁.storage]
      apply List.map_congr_left
      intro r _
      exact foldl_rowAfter_of_forall env₂ _ r (fun o ho => Or.inr (hnone o ho).1)
    have h₂ := updateOrders_eq env₂ c₁ hfree₁ hquery
    rw [hU, hrows] at h₂
    simp only [attributeProfits, List.map_nil, List.append_nil] at h₂
    refine ⟨_, [.lock] ++ (queryOpen c₁.storage).flatMap (stepEffects env₂) ++ [.unlock],
      h₂, rfl, rfl, by simp [List.append_assoc], ?_, ?_⟩
    · intro e he
      simp only [List.mem_append, List.mem_singleton, List.mem_flatMap] at he
      rcases he with (rfl | ⟨o, _, heo⟩) | rfl
      · rfl
      · exact stepEffects_not_publish env₂ o e heo
      · rfl
    · intro e he hw
      simp only [List.mem_append, List.mem_singleton, List.mem_flatMap] at he
      rcases he with (rfl | ⟨o, ho, heo⟩) | rfl
      · cases hw
      · obtain ⟨hch, r, hr⟩ := hnone o ho
        rcases stepEffects_of_changeOf_none hch with h | ⟨h, _, excOrder, hex, hne⟩
        · rw [h] at heo
          simp at heo
          subst heo
          cases hw
        · rw [h] at heo
          simp at heo
          rcases heo with rfl | rfl
          · cases hw
          · refine ⟨o.ID, rfl, ?_⟩
            subst hr
            rw [hsame] at hex
            rw [settle_ID]
            exact settle_settled env₁ r excOrder hex hne (mem_queryOpen.mp ho).2
      · cases hw

/-- Witness of claim C2 (amended): after the fill of the only open order is written,
the next cycle writes and publishes nothing. -/
theorem updateOrders_idempotent_witness :
    ((NewController [pendingRow]).storage.map (fun r => r.ID)).Nodup ∧
    updateOrders (calmEnv reportingExchange) (NewController [pendingRow]) =
      .ok { mtx := false, storage := [filledRow], Results := fun _ => none,
            trace := [.lock, .exchangeOrder pendingRow, .save 1 true,
              .publish filledOrder false, .unlock] } ∧
    ∃ (c₂ : Controller) (ev : List Effect),
      updateOrders (calmEnv reportingExchange)
        { mtx := false, storage := [filledRow], Results := fun _ => none,
          trace := [.lock, .exchangeOrder pendingRow, .save 1 true,
            .publish filledOrder false, .unlock] } = .ok c₂ ∧
      c₂.storage = [filledRow] ∧
      c₂.trace = [.lock, .exchangeOrder pendingRow, .save 1 true,
        .publish filledOrder false, .unlock] ++ ev ∧
      (∀ e ∈ ev, e.isPublish = false) ∧ (∀ e ∈ ev, e.isWrite = false) := by
  refine ⟨by decide, rfl, ?_⟩
  obtain ⟨c₂, ev, hrun, hst, -, htr, hpub, hwr⟩ :=
    updateOrders_idempotent (calmEnv reportingExchange) (calmEnv reportingExchange)
      (NewController [pendingRow]) _ (by decide) rfl rfl (fun _ h => h) rfl
  refine ⟨c₂, ev, hrun, hst, htr, hpub, ?_⟩
  intro e he
  by_contra hw
  obtain ⟨id, -, hfail⟩ := hwr e he (by simpa using hw)
  cases hfail

/-- Claim C2 (counterexample). The exchange reports the same status `Filled` in both
cycles; the repository update of the first cycle fails, so the order stays `New`; the
second cycle, with no change at the exchange, writes the order and publishes it. -/
theorem updateOrders_retry_writes_on_second_run :
    failingSaveEnv.exchange.Order = (calmEnv reportingExchange).exchange.Order ∧
    updateOrders failingSaveEnv (NewController [pendingRow]) = .ok afterFailedSave ∧
    updateOrders (calmEnv reportingExchange) afterFailedSave =
      .ok { mtx := false, storage := [filledRow], Results := fun _ => none,
            trace := afterFailedSave.trace ++
              [.lock, .exchangeOrder pendingRow, .save 1 true, .publish filledOrder false,
               .unlock] } :=
  ⟨rfl, rfl, rfl⟩

/-! ## A failing order in a reconciliation cycle -/

theorem queryOpen_filter (p : EntOrder → Bool) (rows : List EntOrder) :
    queryOpen (rows.filter p) = (queryOpen rows).filter p := by
  unfold queryOpen
  rw [← insertionSort_filter, List.filter_comm]

theorem filterMap_filter_of_none {α β : Type} (f : α → Option β) (p : α → Bool) (l : List α)
    (h : ∀ a ∈ l, p a = false → f a = none) : (l.filter p).filterMap f = l.filterMap f := by
  induction l with
  | nil => rfl
  | cons a l ih =>
    have ih' := ih (fun b hb => h b (List.mem_cons_of_mem _ hb))
    by_cases hp : p a = true
    · rw [List.filter_cons, if_pos hp, List.filterMap_cons, List.filterMap_cons, ih']
    · have hnone := h a (List.mem_cons_self _ _) (by simpa using hp)
      rw [List.filter_cons, if_neg hp, List.filterMap_cons_none hnone, ih']

theorem flatMap_filter {α β : Type} (g : α → List β) (p : α → Bool) (q : β → Bool) (l : List α)
    (hpos : ∀ a ∈ l, p a = true → ∀ e ∈ g a, q e = true)
    (hneg : ∀ a ∈ l, p a = false → ∀ e ∈ g a, q e = false) :
    (l.filter p).flatMap g = (l.flatMap g).filter q := by
  induction l with
  | nil => rfl
  | cons a l ih =>
    have ih' := ih (fun b hb => hpos b (List.mem_cons_of_mem _ hb))
      (fun b hb => hneg b (List.mem_cons_of_mem _ hb))
    rw [List.flatMap_cons, List.filter_append, ← ih']
    by_cases hp : p a = true
    · rw [List.filter_cons, if_pos hp, List.flatMap_cons,
        List.filter_eq_self.mpr (hpos a (List.mem_cons_self _ _) hp)]
    · have hp' : p a = false := by simpa using hp
      have : (g a).filter q = [] := by
        rw [List.filter_eq_nil_iff]
        intro e he
        simp [hneg a (List.mem_cons_self _ _) hp' e he]
      rw [List.filter_cons, if_neg hp, this, List.nil_append]

theorem foldl_rowAfter_filter (env : Env) (p : EntOrder → Bool) (orders : List EntOrder)
    (r : EntOrder) (h : ∀ order ∈ orders, p order = false → changeOf env order = none) :
    (orders.filter p).foldl (fun r order => rowAfter env order r) r =
      orders.foldl (fun r order => rowAfter env order r) r := by
  induction orders generalizing r with
  | nil => rfl
  | cons order rest ih =>
    have ih' := fun r => ih r (fun o ho => h o (List.mem_cons_of_mem _ ho))
    by_cases hp : p order = true
    · rw [List.filter_cons, if_pos hp, List.foldl_cons, List.foldl_cons, ih']
    · have hnone := h order (List.mem_cons_self _ _) (by simpa using hp)
      rw [List.filter_cons, if_neg hp, List.foldl_cons, rowAfter_of_none env order r hnone, ih']

theorem calculateProfit_congr {rows rows' : List EntOrder} (fails : Bool) (o : Order)
    (h : queryHistory rows o = queryHistory rows' o) :
    calculateProfit rows fails o = calculateProfit rows' fails o := by
  unfold calculateProfit
  rw [h]

theorem attributeProfits_congr (env : Env) {rows rows' : List EntOrder}
    (h : ∀ o, queryHistory rows o = queryHistory rows' o) (updated : List Order)
    (results : String → Option summary) :
    attributeProfits env rows updated results = attributeProfits env rows' updated results := by
  induction updated generalizing results with
  | nil => rfl
  | cons o rest ih =>
    simp only [attributeProfits, calculateProfit_congr _ o (h o), ih]

theorem queryHistory_filter (p : EntOrder → Bool) (rows : List EntOrder) (o : Order)
    (h : ∀ r ∈ rows, p r = false → r.Status ≠ .Filled) :
    queryHistory (rows.filter p) o = queryHistory rows o := by
  unfold queryHistory
  congr 1
  rw [List.filter_filter]
  apply List.filter_congr
  intro r hr
  by_cases hp : p r = true
  · simp [hp]
  · have := h r hr (by simpa using hp)
    simp [this]

theorem updateOrders_run {env : Env} {c c' : Controller} (h : updateOrders env c = .ok c') :
    ∃ results outs,
      attributeProfits env (rowsAfter env (queryOpen c.storage) c.storage)
        ((queryOpen c.storage).filterMap (changeOf env)) c.Results = .ok (results, outs) ∧
      c' = { mtx := false,
             storage := rowsAfter env (queryOpen c.storage) c.storage,
             Results := results,
             trace := c.trace ++ [.lock] ++ (queryOpen c.storage).flatMap (stepEffects env) ++
               outs.map (fun o => Effect.publish o false) ++ [.unlock] } := by
  obtain ⟨hfree, hq⟩ := updateOrders_ok_inv h
  have h₁ := updateOrders_eq env c hfree hq
  rw [h] at h₁
  cases hattr : attributeProfits env (rowsAfter env (queryOpen c.storage) c.storage)
      ((queryOpen c.storage).filterMap (changeOf env)) c.Results with
  | error e => rw [hattr] at h₁; cases h₁
  | ok w =>
    obtain ⟨results, outs⟩ := w
    rw [hattr] at h₁
    simp only [Except.ok.injEq] at h₁
    exact ⟨results, outs, rfl, h₁⟩

theorem changeOf_none_of_fails {env : Env} {r : EntOrder}
    (h : (∃ err, env.exchange.Order r.Symbol r.ExchangeID = .error err) ∨
      env.saveFails r.ID = true) : changeOf env r = none := by
  rcases h with ⟨err, herr⟩ | hsave
  · simp [changeOf, herr]
  · unfold changeOf
    cases env.exchange.Order r.Symbol r.ExchangeID with
    | error err => rfl
    | ok excOrder =>
      by_cases hst : excOrder.Status = r.Status
      · simp [hst]
      · simp [hst, hsave]

theorem rowsAfter_fixes_skipped (env : Env) (rows : List EntOrder) (x : Nat)
    (hnone : ∀ r ∈ rows, r.ID = x → changeOf env r = none) :
    ∀ r, r.ID = x → (r ∈ rowsAfter env (queryOpen rows) rows ↔ r ∈ rows) := by
  have hfix : ∀ r ∈ rows, r.ID = x →
      (queryOpen rows).foldl (fun r order => rowAfter env order r) r = r := by
    intro r _ hid
    apply foldl_rowAfter_of_forall
    intro o ho
    by_cases h : o.ID = r.ID
    · right
      exact hnone o (mem_queryOpen.mp ho).1 (h.trans hid)
    · left
      exact h
  intro r hid
  unfold rowsAfter
  rw [List.mem_map]
  constructor
  · rintro ⟨r0, hr0, rfl⟩
    rw [foldl_rowAfter_ID] at hid
    rw [hfix r0 hr0 hid]
    exact hr0
  · intro hr
    exact ⟨r, hr, hfix r hr hid⟩

theorem cycle_without_skipped (env : Env) (rows : List EntOrder) (x : Nat)
    (results : String → Option summary)
    (hnone : ∀ r ∈ rows, r.ID = x → changeOf env r = none)
    (hopen : ∀ r ∈ rows, r.ID = x → r.Status.isOpen = true) :
    queryOpen (rows.filter (fun r => decide (r.ID ≠ x))) =
      (queryOpen rows).filter (fun r => decide (r.ID ≠ x)) ∧
    rowsAfter env (queryOpen (rows.filter (fun r => decide (r.ID ≠ x))))
        (rows.filter (fun r => decide (r.ID ≠ x))) =
      (rowsAfter env (queryOpen rows) rows).filter (fun r => decide (r.ID ≠ x)) ∧
    attributeProfits env
        (rowsAfter env (queryOpen (rows.filter (fun r => decide (r.ID ≠ x))))
          (rows.filter (fun r => decide (r.ID ≠ x))))
        ((queryOpen (rows.filter (fun r => decide (r.ID ≠ x)))).filterMap (changeOf env))
        results =
      attributeProfits env (rowsAfter env (queryOpen rows) rows)
        ((queryOpen rows).filterMap (changeOf env)) results := by
  have hnoneL : ∀ o ∈ queryOpen rows, decide (o.ID ≠ x) = false → changeOf env o = none := by
    intro o ho hp
    exact hnone o (mem_queryOpen.mp ho).1 (by simpa using hp)
  have hL := queryOpen_filter (fun r => decide (r.ID ≠ x)) rows
  have hU : (queryOpen (rows.filter (fun r => decide (r.ID ≠ x)))).filterMap (changeOf env) =
      (queryOpen rows).filterMap (changeOf env) := by
    rw [hL]
    exact filterMap_filter_of_none _ _ _ hnoneL
  have hrows : rowsAfter env (queryOpen (rows.filter (fun r => decide (r.ID ≠ x))))
      (rows.filter (fun r => decide (r.ID ≠ x))) =
      (rowsAfter env (queryOpen rows) rows).filter (fun r => decide (r.ID ≠ x)) := by
    rw [hL]
    unfold rowsAfter
    rw [List.filter_map]
    have hcomp : ((fun r : EntOrder => decide (r.ID ≠ x)) ∘
        fun r => (queryOpen rows).foldl (fun r order => rowAfter env order r) r) =
        fun r : EntOrder => decide (r.ID ≠ x) := by
      funext r
      simp only [Function.comp, foldl_rowAfter_ID]
    rw [hcomp]
    apply List.map_congr_left
    intro r _
    exact foldl_rowAfter_filter env _ _ r hnoneL
  have hhist : ∀ o, queryHistory
      ((rowsAfter env (queryOpen rows) rows).filter (fun r => decide (r.ID ≠ x))) o =
      queryHistory (rowsAfter env (queryOpen rows) rows) o := by
    intro o
    apply queryHistory_filter
    intro r hr hp
    have hid : r.ID = x := by simpa using hp
    have hr' := (rowsAfter_fixes_skipped env rows x hnone r hid).mp hr
    intro hfilled
    have := hopen r hr' hid
    rw [hfilled] at this
    cases this
  refine ⟨hL, hrows, ?_⟩
  rw [hU, hrows, attributeProfits_congr env hhist]

/-- Claim C6. In a reconciliation cycle, let the exchange query or the repository
update fail for the open order of local id `x`.  A cycle that ends in a crash ends
in the same crash on the repository without `x`.  In a cycle that returns, the rows
of `x` are unchanged (so still open and selected by the next cycle), no update of
`x` succeeds, no published order has local id `x`, and the cycle on the repository
without `x` returns with the same results, the same other rows and the same actions
except those about `x`. -/
theorem updateOrders_skips_failing_order (env : Env) (c : Controller) (x : Nat)
    (hx : ∀ r ∈ c.storage, r.ID = x → r.Status.isOpen = true ∧
      ((∃ err, env.exchange.Order r.Symbol r.ExchangeID = .error err) ∨
        env.saveFails x = true)) :
    (∀ e, updateOrders env c = .error e → updateOrders env (withoutOrder x c) = .error e) ∧
    (∀ c', updateOrders env c = .ok c' →
      ∃ (ev : List Effect) (d' : Controller),
        c'.trace = c.trace ++ ev ∧
        (∀ r, r.ID = x → (r ∈ c'.storage ↔ r ∈ c.storage)) ∧
        (∀ r ∈ c.storage, r.ID = x → r ∈ queryOpen c'.storage) ∧
        Effect.save x true ∉ ev ∧
        (∀ o b, Effect.publish o b ∈ ev → o.ID ≠ x) ∧
        updateOrders env (withoutOrder x c) = .ok d' ∧
        d'.storage = c'.storage.filter (fun r => decide (r.ID ≠ x)) ∧
        d'.Results = c'.Results ∧
        d'.trace = c.trace ++ ev.filter (fun e => !e.concerns x)) := by
  have hnone : ∀ r ∈ c.storage, r.ID = x → changeOf env r = none := by
    intro r hr hid
    apply changeOf_none_of_fails
    rw [hid]
    exact (hx r hr hid).2
  have hopen : ∀ r ∈ c.storage, r.ID = x → r.Status.isOpen = true :=
    fun r hr hid => (hx r hr hid).1
  obtain ⟨hL, -, hsame⟩ := cycle_without_skipped env c.storage x c.Results hnone hopen
  have hmem := rowsAfter_fixes_skipped env c.storage x hnone
  have hrows := (cycle_without_skipped env c.storage x c.Results hnone hopen).2.1
  constructor
  · intro e he
    by_cases hfree : c.mtx = false
    · by_cases hq : env.queryOpenFails = true
      · rw [updateOrders_of_queryOpenFails env c hfree hq] at he
        rw [updateOrders_of_queryOpenFails env (withoutOrder x c) hfree hq]
        exact he
      · have hq' : env.queryOpenFails = false := by simpa using hq
        have h₁ := updateOrders_eq env c hfree hq'
        have h₂ := updateOrders_eq env (withoutOrder x c) hfree hq'
        have hs : (withoutOrder x c).storage =
            c.storage.filter (fun r => decide (r.ID ≠ x)) := rfl
        have hres : (withoutOrder x c).Results = c.Results := rfl
        rw [hs, hres, hsame] at h₂
        rw [he] at h₁
        cases hattr : attributeProfits env (rowsAfter env (queryOpen c.storage) c.storage)
            ((queryOpen c.storage).filterMap (changeOf env)) c.Results with
        | error e' =>
          rw [hattr] at h₁ h₂
          rw [h₂]
          exact h₁.symm
        | ok w =>
          rw [hattr] at h₁
          cases h₁
    · have hheld : c.mtx = true := by simpa using hfree
      have hheld' : (withoutOrder x c).mtx = true := hheld
      simp only [updateOrders, Controller.Lock, hheld, if_true] at he
      simp only [updateOrders, Controller.Lock, hheld', if_true]
      exact he
  · intro c' hrun
    obtain ⟨hfree, hq⟩ := updateOrders_ok_inv hrun
    obtain ⟨results, outs, hattr, rfl⟩ := updateOrders_run hrun
    obtain ⟨houts, -⟩ := attributeProfits_outs hattr
    -- ids of the published orders
    have hpub : ∀ o ∈ outs, o.ID ≠ x := by
      intro o ho hid
      have : o.ID ∈ outs.map (fun o => o.ID) := List.mem_map_of_mem (fun o => o.ID) ho
      rw [houts, mem_changes] at this
      obtain ⟨r, hr, hrid, _, u, hu⟩ := this
      rw [hnone r hr (hrid.trans hid)] at hu
      cases hu
    -- effects of the first loop
    have hsteps : ∀ o ∈ queryOpen c.storage, ∀ e ∈ stepEffects env o,
        e.concerns x = decide (o.ID = x) := by
      intro o _ e he
      unfold stepEffects at he
      split at he
      · simp at he; subst he; rfl
      · split at he
        · simp at he; subst he; rfl
        · simp at he
          rcases he with rfl | rfl <;> rfl
    -- the run without the failing order
    have hrun' := updateOrders_eq env (withoutOrder x c) hfree hq
    have hs : (withoutOrder x c).storage =
        c.storage.filter (fun r => decide (r.ID ≠ x)) := rfl
    have hres : (withoutOrder x c).Results = c.Results := rfl
    have htrace : (withoutOrder x c).trace = c.trace := rfl
    rw [hs, hres, hsame, hattr, htrace, hrows] at hrun'
    have heffects : (queryOpen (c.storage.filter (fun r => decide (r.ID ≠ x)))).flatMap
        (stepEffects env) =
        ((queryOpen c.storage).flatMap (stepEffects env)).filter (fun e => !e.concerns x) := by
      rw [hL]
      apply flatMap_filter
      · intro o ho hp e he
        rw [hsteps o ho e he]
        simpa using hp
      · intro o ho hp e he
        rw [hsteps o ho e he]
        simpa using hp
    have hpubs : (outs.map (fun o => Effect.publish o false)).filter (fun e => !e.concerns x) =
        outs.map (fun o => Effect.publish o false) := by
      rw [List.filter_eq_self]
      intro e he
      obtain ⟨o, ho, rfl⟩ := List.mem_map.mp he
      simp [Effect.concerns, hpub o ho]
    refine ⟨[.lock] ++ (queryOpen c.storage).flatMap (stepEffects env) ++
        outs.map (fun o => Effect.publish o false) ++ [.unlock], _, ?_, hmem, ?_, ?_, ?_, hrun',
        rfl, rfl, ?_⟩
    · simp [List.append_assoc]
    · intro r hr hid
      exact mem_queryOpen.mpr ⟨(hmem r hid).mpr hr, (hx r hr hid).1⟩
    · intro hmemx
      simp only [List.mem_append, List.mem_singleton, List.mem_flatMap, List.mem_map] at hmemx
      rcases hmemx with ((h | ⟨o, ho, heo⟩) | ⟨o, _, h⟩) | h
      · cases h
      · have hc := hsteps o ho _ heo
        have hox : o.ID = x := by simpa [Effect.concerns] using hc.symm
        rcases stepEffects_of_changeOf_none (hnone o (mem_queryOpen.mp ho).1 hox) with h | ⟨h, -⟩
        · rw [h] at heo
          simp at heo
        · rw [h] at heo
          simp at heo
      · cases h
      · cases h
    · intro o b hob
      simp only [List.mem_append, List.mem_singleton, List.mem_flatMap, List.mem_map] at hob
      rcases hob with ((h | ⟨r, _, her⟩) | ⟨o', ho', h⟩) | h
      · cases h
      · have := stepEffects_not_publish env r _ her
        cases this
      · cases h
        exact hpub o ho'
      · cases h
    · simp only [heffects, List.filter_append, hpubs]
      simp [Effect.concerns, List.append_assoc]

/-- Witness of claim C6: two open orders, the status query of the first fails, the
second is reported filled. -/
theorem updateOrders_skips_failing_order_witness :
    (∀ r ∈ (NewController twoOpen).storage, r.ID = 1 → r.Status.isOpen = true ∧
      ((∃ err, (calmEnv flakyExchange).exchange.Order r.Symbol r.ExchangeID = .error err) ∨
        (calmEnv flakyExchange).saveFails 1 = true)) ∧
    updateOrders (calmEnv flakyExchange) (NewController twoOpen) =
      .ok { mtx := false,
            storage := [btcRow 1 .Buy .Limit .New 10000 1 1,
              { btcRow 2 .Buy .Limit .New 11000 1 1 with Status := .Filled, UpdatedAt := 2 }],
            Results := fun _ => none,
            trace := [.lock, .exchangeOrder (btcRow 1 .Buy .Limit .New 10000 1 1),
              .exchangeOrder (btcRow 2 .Buy .Limit .New 11000 1 1), .save 2 true,
              .publish { btcOrder 102 .Buy .Limit .Filled 11000 1 none 2 with ID := 2 } false,
              .unlock] } ∧
    ∃ d' : Controller,
      updateOrders (calmEnv flakyExchange) (withoutOrder 1 (NewController twoOpen)) = .ok d' ∧
      d'.storage =
        [{ btcRow 2 .Buy .Limit .New 11000 1 1 with Status := .Filled, UpdatedAt := 2 }] := by
  have hx : ∀ r ∈ (NewController twoOpen).storage, r.ID = 1 → r.Status.isOpen = true ∧
      ((∃ err, (calmEnv flakyExchange).exchange.Order r.Symbol r.ExchangeID = .error err) ∨
        (calmEnv flakyExchange).saveFails 1 = true) := by
    intro r hr hid
    simp only [NewController, twoOpen, List.mem_cons, List.mem_singleton, List.not_mem_nil,
      or_false] at hr
    rcases hr with rfl | rfl
    · exact ⟨rfl, Or.inl ⟨.exchange, rfl⟩⟩
    · cases hid
  refine ⟨hx, rfl, ?_⟩
  obtain ⟨ev, d', -, -, -, -, -, hrun, hst, -, -⟩ :=
    (updateOrders_skips_failing_order (calmEnv flakyExchange) (NewController twoOpen) 1 hx).2
      _ rfl
  exact ⟨d', hrun, hst⟩

/-! ## The submitting operations -/

theorem lt_nextID (rows : List EntOrder) : ∀ r ∈ rows, r.ID < nextID rows := by
  intro r hr
  unfold nextID
  induction rows with
  | nil => cases hr
  | cons a rows ih =>
    simp only [List.map_cons, List.foldr_cons]
    rcases List.mem_cons.mp hr with rfl | h
    · exact Nat.lt_succ_of_le (le_max_left _ _)
    · have := ih h
      exact Nat.lt_succ_of_le (le_trans (Nat.le_of_lt_succ this) (le_max_right _ _))

theorem nodup_append_register (rows : List EntOrder) (order : Order)
    (hids : (rows.map (fun r => r.ID)).Nodup) :
    ((rows ++ [register (nextID rows) order]).map (fun r => r.ID)).Nodup := by
  rw [List.map_append, List.map_singleton, List.nodup_append]
  refine ⟨hids, List.nodup_singleton _, ?_⟩
  intro id hid hid'
  rw [List.mem_singleton] at hid'
  obtain ⟨r, hr, rfl⟩ := List.mem_map.mp hid
  have := lt_nextID rows r hr
  rw [hid'] at this
  exact absurd this (lt_irrefl _)

theorem createOrder_grows (fails : Bool) (c : Controller) (order : Order) :
    c.storage <+: (createOrder fails c order).1.storage ∧
    (createOrder fails c order).1.Results = c.Results ∧
    (createOrder fails c order).1.mtx = c.mtx := by
  unfold createOrder
  cases fails with
  | true => exact ⟨List.prefix_refl _, rfl, rfl⟩
  | false => exact ⟨List.prefix_append _ _, rfl, rfl⟩

theorem createOrder_nodup (fails : Bool) (c : Controller) (order : Order)
    (hids : (c.storage.map (fun r => r.ID)).Nodup) :
    ((createOrder fails c order).1.storage.map (fun r => r.ID)).Nodup := by
  unfold createOrder
  cases fails with
  | true => exact hids
  | false => exact nodup_append_register _ _ hids

theorem createLegs_grows (env : Env) (i : Nat) (orders : List Order) (c : Controller)
    (done : List Order) :
    c.storage <+: (createLegs env i orders c done).1.storage ∧
    (createLegs env i orders c done).1.Results = c.Results ∧
    (createLegs env i orders c done).1.mtx = c.mtx := by
  induction orders generalizing i c done with
  | nil => exact ⟨List.prefix_refl _, rfl, rfl⟩
  | cons o rest ih =>
    have hco := createOrder_grows (env.createFails i) c o
    unfold createLegs
    rcases hc : createOrder (env.createFails i) c o with ⟨c₁, o₁, err⟩
    rw [hc] at hco
    obtain ⟨hpre, hres, hm⟩ := hco
    cases err with
    | some e => exact ⟨hpre, hres, hm⟩
    | none =>
      obtain ⟨hpre', hres', hm'⟩ :=
        ih (i + 1) { c₁ with trace := c₁.trace ++ [.publish o₁ true] } (done ++ [o₁])
      exact ⟨hpre.trans hpre', hres'.trans hres, hm'.trans hm⟩

theorem createLegs_nodup (env : Env) (i : Nat) (orders : List Order) (c : Controller)
    (done : List Order) (hids : (c.storage.map (fun r => r.ID)).Nodup) :
    ((createLegs env i orders c done).1.storage.map (fun r => r.ID)).Nodup := by
  induction orders generalizing i c done with
  | nil => exact hids
  | cons o rest ih =>
    have hco := createOrder_nodup (env.createFails i) c o hids
    unfold createLegs
    rcases hc : createOrder (env.createFails i) c o with ⟨c₁, o₁, err⟩
    rw [hc] at hco
    cases err with
    | some e => exact hco
    | none =>
      exact ih (i + 1) { c₁ with trace := c₁.trace ++ [.publish o₁ true] } (done ++ [o₁]) hco

theorem Extends.of_storage_eq {c c' : Controller} (hs : c'.storage = c.storage)
    (hr : c'.Results = c.Results) (hm : c'.mtx = false) : Extends c c' :=
  ⟨by rw [hs], fun hn => by rw [hs]; exact hn, Or.inl hr, hm⟩

theorem OrderLimit_extends {env : Env} {c c' : Controller} {side : SideType}
    {symbol : String} {size limit : Float64} {res : Except Error Order}
    (h : OrderLimit env c side symbol size limit = .ok (c', res)) : Extends c c' := by
  have hm : c.mtx = false := by
    by_contra hm
    simp [OrderLimit, Controller.Lock, hm] at h
  simp only [OrderLimit, Controller.Lock, Controller.Unlock, createOrder, hm] at h
  cases hex : env.exchange.OrderLimit side symbol size limit with
  | error err =>
    rw [hex] at h
    simp at h
    obtain ⟨rfl, -⟩ := h
    exact Extends.of_storage_eq rfl rfl rfl
  | ok order =>
    rw [hex] at h
    cases hf : env.createFails 0 with
    | true =>
      rw [hf] at h
      simp at h
      obtain ⟨rfl, -⟩ := h
      exact Extends.of_storage_eq rfl rfl rfl
    | false =>
      rw [hf] at h
      simp at h
      obtain ⟨rfl, -⟩ := h
      exact ⟨List.prefix_append _ _, nodup_append_register _ _, Or.inl rfl, rfl⟩

theorem OrderMarket_extends {env : Env} {c c' : Controller} {side : SideType}
    {symbol : String} {size : Float64} {res : Except Error Order}
    (h : OrderMarket env c side symbol size = .ok (c', res)) : Extends c c' := by
  have hm : c.mtx = false := by
    by_contra hm
    simp [OrderMarket, Controller.Lock, hm] at h
  simp only [OrderMarket, Controller.Lock, Controller.Unlock, createOrder, hm] at h
  cases hex : env.exchange.OrderMarket side symbol size with
  | error err =>
    rw [hex] at h
    simp at h
    obtain ⟨rfl, -⟩ := h
    exact Extends.of_storage_eq rfl rfl rfl
  | ok order =>
    rw [hex] at h
    cases hf : env.createFails 0 with
    | true =>
      rw [hf] at h
      simp at h
      obtain ⟨rfl, -⟩ := h
      exact Extends.of_storage_eq rfl rfl rfl
    | false =>
      rw [hf] at h
      by_cases hside : order.Side = .Sell
      · simp only [Bool.false_eq_true, if_false, hside, if_true, processTrade] at h
        cases hp : calculateProfit (c.storage ++ [register (nextID c.storage) order])
            (env.queryHistoryFails (nextID c.storage))
            { order with ID := nextID c.storage } with
        | error e =>
          rw [hside] at hp
          rw [hp] at h
          simp at h
        | ok v =>
          obtain ⟨profitValue, profit, err⟩ := v
          rw [hside] at hp
          rw [hp] at h
          simp at h
          obtain ⟨rfl, -⟩ := h
          exact ⟨List.prefix_append _ _, nodup_append_register _ _, Or.inr ⟨_, _, rfl⟩, rfl⟩
      · simp [hside] at h
        obtain ⟨rfl, -⟩ := h
        exact ⟨List.prefix_append _ _, nodup_append_register _ _, Or.inl rfl, rfl⟩

theorem OrderOCO_extends {env : Env} {c c' : Controller} {side : SideType}
    {symbol : String} {size price stop stopLimit : Float64} {res : Except Error (List Order)}
    (h : OrderOCO env c side symbol size price stop stopLimit = .ok (c', res)) :
    Extends c c' := by
  have hm : c.mtx = false := by
    by_contra hm
    simp [OrderOCO, Controller.Lock, hm] at h
  simp only [OrderOCO, Controller.Lock, hm] at h
  cases hex : env.exchange.OrderOCO side symbol size price stop stopLimit with
  | error err =>
    rw [hex] at h
    simp [Controller.Unlock] at h
    obtain ⟨rfl, -⟩ := h
    exact Extends.of_storage_eq rfl rfl rfl
  | ok orders =>
    rw [hex] at h
    simp only [Bool.false_eq_true, if_false] at h
    rcases hcl : createLegs env 0 orders
      { mtx := true, storage := c.storage, Results := c.Results, trace := c.trace ++ [.lock] }
      [] with ⟨c₁, r₁⟩
    rw [hcl] at h
    have hpre := createLegs_grows env 0 orders
      { mtx := true, storage := c.storage, Results := c.Results, trace := c.trace ++ [.lock] } []
    have hnd := createLegs_nodup env 0 orders
      { mtx := true, storage := c.storage, Results := c.Results, trace := c.trace ++ [.lock] } []
    rw [hcl] at hpre hnd
    obtain ⟨hpre, hres, hmtx⟩ := hpre
    simp only at hpre hres hmtx hnd
    simp [Controller.Unlock, hmtx] at h
    obtain ⟨rfl, -⟩ := h
    exact ⟨hpre, hnd, Or.inl hres, rfl⟩

theorem Cancel_spec {env : Env} {c c' : Controller} {order : Order} {res : Option Error}
    (h : Cancel env c order = .ok (c', res)) :
    (c'.Results = c.Results ∧ c'.mtx = false) ∧
    ((c'.storage = c.storage ∧ res ≠ none) ∨
      (c'.storage = setStatus c.storage order.ID .PendingCancel ∧ res = none)) := by
  have hm : c.mtx = false := by
    by_contra hm
    simp [Cancel, Controller.Lock, hm] at h
  simp only [Cancel, Controller.Lock, Controller.Unlock, hm] at h
  cases hex : env.exchange.Cancel order with
  | some err =>
    rw [hex] at h
    simp at h
    obtain ⟨rfl, rfl⟩ := h
    exact ⟨⟨rfl, rfl⟩, Or.inl ⟨rfl, by simp⟩⟩
  | none =>
    rw [hex] at h
    simp only [Bool.false_eq_true, if_false] at h
    split at h
    · simp at h
      obtain ⟨rfl, rfl⟩ := h
      exact ⟨⟨rfl, rfl⟩, Or.inl ⟨rfl, by simp⟩⟩
    · simp at h
      obtain ⟨rfl, rfl⟩ := h
      exact ⟨⟨rfl, rfl⟩, Or.inr ⟨rfl, rfl⟩⟩

theorem status_of_mem_setStatus {rows : List EntOrder} {id : Nat} {st : OrderStatusType}
    {r : EntOrder} (hr : r ∈ setStatus rows id st) (hid : r.ID = id) : r.Status = st := by
  unfold setStatus at hr
  obtain ⟨r0, -, rfl⟩ := List.mem_map.mp hr
  by_cases h : r0.ID = id
  · rw [if_pos h]
  · rw [if_neg h] at hid
    exact absurd hid h

theorem setStatus_ids (rows : List EntOrder) (id : Nat) (st : OrderStatusType) :
    (setStatus rows id st).map (fun r => r.ID) = rows.map (fun r => r.ID) := by
  unfold setStatus
  rw [List.map_map]
  apply List.map_congr_left
  intro r _
  simp only [Function.comp]
  split <;> rfl

theorem mem_setStatus_of_ne {rows : List EntOrder} {id : Nat} {st : OrderStatusType}
    {r : EntOrder} (hr : r ∈ rows) (hne : id ≠ r.ID) : r ∈ setStatus rows id st := by
  unfold setStatus
  exact List.mem_map.mpr ⟨r, hr, by rw [if_neg (fun h => hne h.symm)]⟩

theorem settle_of_not_open (env : Env) (r : EntOrder) (h : r.Status.isOpen = false) :
    settle env r = r := by
  simp [settle, h]

theorem settle_ids (env : Env) (rows : List EntOrder) :
    (rows.map (settle env)).map (fun r => r.ID) = rows.map (fun r => r.ID) := by
  rw [List.map_map]
  apply List.map_congr_left
  intro r _
  exact settle_ID env r

theorem stepEffects_exchangeOrder {env : Env} {order r : EntOrder}
    (h : Effect.exchangeOrder r ∈ stepEffects env order) : r = order := by
  unfold stepEffects at h
  split at h
  · simpa using h
  · split at h
    · simpa using h
    · simpa using h

/-- Claim C4 (amended). On a repository with distinct local ids, a row whose status
is filled or canceled is still in the repository, unchanged and alone with its local
id, after a reconciliation cycle, `OrderMarket`, `OrderLimit`, `OrderOCO`, and after
a `Cancel` of an order with another local id; the reconciliation cycle issues no
exchange query for it.  A `Cancel` that returns without error leaves the order of
the given local id with status pending-cancel, whatever its status was. -/
theorem terminal_orders_untouched (env : Env) (c : Controller) (r : EntOrder)
    (hids : (c.storage.map (fun r => r.ID)).Nodup)
    (hr : r ∈ c.storage) (hterm : r.Status = .Filled ∨ r.Status = .Canceled) :
    (∀ c', updateOrders env c = .ok c' →
      (r ∈ c'.storage ∧ (c'.storage.map (fun r => r.ID)).Nodup) ∧
      ∃ ev, c'.trace = c.trace ++ ev ∧ Effect.exchangeOrder r ∉ ev) ∧
    (∀ side symbol size c' res, OrderMarket env c side symbol size = .ok (c', res) →
      r ∈ c'.storage ∧ (c'.storage.map (fun r => r.ID)).Nodup) ∧
    (∀ side symbol size limit c' res,
      OrderLimit env c side symbol size limit = .ok (c', res) →
      r ∈ c'.storage ∧ (c'.storage.map (fun r => r.ID)).Nodup) ∧
    (∀ side symbol size price stop stopLimit c' res,
      OrderOCO env c side symbol size price stop stopLimit = .ok (c', res) →
      r ∈ c'.storage ∧ (c'.storage.map (fun r => r.ID)).Nodup) ∧
    (∀ order c' res, Cancel env c order = .ok (c', res) → order.ID ≠ r.ID →
      r ∈ c'.storage ∧ (c'.storage.map (fun r => r.ID)).Nodup) ∧
    (∀ order c', Cancel env c order = .ok (c', none) →
      ∀ r' ∈ c'.storage, r'.ID = order.ID → r'.Status = .PendingCancel) := by
  have hclosed : r.Status.isOpen = false := by
    rcases hterm with h | h <;> rw [h] <;> rfl
  refine ⟨?_, ?_, ?_, ?_, ?_, ?_⟩
  · intro c' hrun
    obtain ⟨results, outs, -, rfl⟩ := updateOrders_run hrun
    simp only [rowsAfter_queryOpen env c.storage hids]
    refine ⟨⟨List.mem_map.mpr ⟨r, hr, settle_of_not_open env r hclosed⟩, ?_⟩, ?_⟩
    · rw [settle_ids]
      exact hids
    · refine ⟨[.lock] ++ (queryOpen c.storage).flatMap (stepEffects env) ++
        outs.map (fun o => Effect.publish o false) ++ [.unlock], by simp [List.append_assoc], ?_⟩
      intro hmem
      simp only [List.mem_append, List.mem_singleton, List.mem_flatMap, List.mem_map] at hmem
      rcases hmem with ((h | ⟨o, ho, heo⟩) | ⟨o, _, h⟩) | h
      · cases h
      · have := stepEffects_exchangeOrder heo
        subst this
        have := (mem_queryOpen.mp ho).2
        rw [hclosed] at this
        cases this
      · cases h
      · cases h
  · intro side symbol size c' res h
    obtain ⟨hpre, hnd, -⟩ := OrderMarket_extends h
    exact ⟨hpre.subset hr, hnd hids⟩
  · intro side symbol size limit c' res h
    obtain ⟨hpre, hnd, -⟩ := OrderLimit_extends h
    exact ⟨hpre.subset hr, hnd hids⟩
  · intro side symbol size price stop stopLimit c' res h
    obtain ⟨hpre, hnd, -⟩ := OrderOCO_extends h
    exact ⟨hpre.subset hr, hnd hids⟩
  · intro order c' res h hne
    obtain ⟨-, ⟨hs, -⟩ | ⟨hs, -⟩⟩ := Cancel_spec h
    · rw [hs]
      exact ⟨hr, hids⟩
    · rw [hs, setStatus_ids]
      exact ⟨mem_setStatus_of_ne hr hne, hids⟩
  · intro order c' h r' hr' hid
    obtain ⟨-, ⟨-, hres⟩ | ⟨hs, -⟩⟩ := Cancel_spec h
    · exact absurd rfl hres
    · rw [hs] at hr'
      exact status_of_mem_setStatus hr' hid

/-- Witness of claim C4 (amended): a filled order next to an open one that the cycle
updates. -/
theorem terminal_orders_untouched_witness :
    ((NewController [filledRow, btcRow 2 .Buy .Limit .New 11000 1 1]).storage.map
      (fun r => r.ID)).Nodup ∧
    filledRow ∈ (NewController [filledRow, btcRow 2 .Buy .Limit .New 11000 1 1]).storage ∧
    (filledRow.Status = .Filled ∨ filledRow.Status = .Canceled) ∧
    updateOrders (calmEnv flakyExchange)
        (NewController [filledRow, btcRow 2 .Buy .Limit .New 11000 1 1]) =
      .ok { mtx := false,
            storage := [filledRow,
              { btcRow 2 .Buy .Limit .New 11000 1 1 with Status := .Filled, UpdatedAt := 2 }],
            Results := fun _ => none,
            trace := [.lock, .exchangeOrder (btcRow 2 .Buy .Limit .New 11000 1 1),
              .save 2 true,
              .publish { btcOrder 102 .Buy .Limit .Filled 11000 1 none 2 with ID := 2 } false,
              .unlock] } ∧
    filledRow ∈
      [filledRow,
        { btcRow 2 .Buy .Limit .New 11000 1 1 with Status := .Filled, UpdatedAt := 2 }] :=
  ⟨by decide, List.mem_cons_self _ _, Or.inl rfl, rfl,
    ((terminal_orders_untouched (calmEnv flakyExchange)
      (NewController [filledRow, btcRow 2 .Buy .Limit .New 11000 1 1]) filledRow
      (by decide) (List.mem_cons_self _ _) (Or.inl rfl)).1 _ rfl).1.1⟩

/-- Claim C4 (counterexample). `Cancel` of a filled order, accepted by the exchange,
sets its persisted status to pending-cancel, and the next reconciliation cycle
queries it at the exchange. -/
theorem Cancel_reopens_filled_order :
    filledRow.Status = .Filled ∧
    Cancel (calmEnv cancellingExchange) (NewController [filledRow]) filledOrder =
      .ok ({ mtx := false, storage := [{ filledRow with Status := .PendingCancel }],
             Results := fun _ => none, trace := [.lock, .save 1 true, .unlock] }, none) ∧
    updateOrders (calmEnv cancellingExchange)
        { mtx := false, storage := [{ filledRow with Status := .PendingCancel }],
          Results := fun _ => none, trace := [.lock, .save 1 true, .unlock] } =
      .ok { mtx := false, storage := [{ filledRow with Status := .PendingCancel }],
            Results := fun _ => none,
            trace := [.lock, .save 1 true, .unlock, .lock,
              .exchangeOrder { filledRow with Status := .PendingCancel }, .unlock] } :=
  ⟨rfl, rfl, rfl⟩

theorem reachable_mtx_free {c : Controller} (h : Reachable c) : c.mtx = false := by
  induction h with
  | init storage => rfl
  | updateOrders _ hrun _ =>
    obtain ⟨results, outs, -, rfl⟩ := updateOrders_run hrun
    rfl
  | orderMarket _ hop _ => exact (OrderMarket_extends hop).2.2.2
  | orderLimit _ hop _ => exact (OrderLimit_extends hop).2.2.2
  | orderOCO _ hop _ => exact (OrderOCO_extends hop).2.2.2
  | cancel _ hop _ => exact (Cancel_spec hop).1.2

/-- Claim C8 (the code at the failing input). `processTrade` on a filled stop-limit
sell whose stop price is a nil pointer does not return: `calculateProfit` dereferences
the stop price and the process ends, with nothing appended to the summary of the
symbol. -/
theorem processTrade_crashes_without_stop :
    noStopSell.Type_ = .StopLossLimit ∧ noStopSell.Stop = none ∧
    processTrade (calmEnv idleExchange) (NewController twoBuys) noStopSell =
      .error .nilPointerDereference :=
  ⟨rfl, rfl, rfl⟩

/-- Claim C3. When the exchange returns at least two legs, the first is persisted
and persisting the second fails, `OrderOCO` returns an error and the repository is
the one before the call followed by one new row (no rollback): the row carries the
assigned local id and the exchange id, symbol, side, type, status, price, quantity,
stop price, group id and timestamps of the first leg, and a lookup by that local id
returns it; the created event of the first leg was published with that id. -/
theorem OrderOCO_second_leg_fails (env : Env) (c : Controller) (side : SideType)
    (symbol : String) (size price stop stopLimit : Float64) (first second : Order)
    (rest : List Order)
    (hfree : c.mtx = false)
    (hlegs : env.exchange.OrderOCO side symbol size price stop stopLimit =
      .ok (first :: second :: rest))
    (hfirst : env.createFails 0 = false) (hsecond : env.createFails 1 = true) :
    ∃ (c' : Controller) (err : Error) (row : EntOrder),
      OrderOCO env c side symbol size price stop stopLimit = .ok (c', .error err) ∧
      row = { ID := nextID c.storage, ExchangeID := first.ExchangeID,
              Symbol := first.Symbol, Side := first.Side, Type_ := first.Type_,
              Status := first.Status, Price := first.Price, Quantity := first.Quantity,
              Stop := first.Stop.getD 0, GroupID := first.GroupID,
              CreatedAt := first.CreatedAt, UpdatedAt := first.UpdatedAt } ∧
      (∀ r ∈ c.storage, r.ID ≠ row.ID) ∧
      c'.storage = c.storage ++ [row] ∧
      c'.storage.find? (fun r => decide (r.ID = row.ID)) = some row ∧
      Effect.publish { first with ID := row.ID } true ∈ c'.trace := by
  have hfresh : ∀ r ∈ c.storage, r.ID ≠ nextID c.storage := by
    intro r hr
    exact Nat.ne_of_lt (lt_nextID c.storage r hr)
  refine ⟨{ mtx := false, storage := c.storage ++ [register (nextID c.storage) first],
            Results := c.Results,
            trace := c.trace ++ [.lock, .create true,
              .publish { first with ID := nextID c.storage } true, .create false, .unlock] },
    .storage, register (nextID c.storage) first, ?_, rfl, hfresh, rfl, ?_, by simp [register]⟩
  · simp [OrderOCO, Controller.Lock, Controller.Unlock, hfree, hlegs, createLegs, createOrder,
      hfirst, hsecond]
  · rw [List.find?_append]
    have hnone : c.storage.find?
        (fun r => decide (r.ID = (register (nextID c.storage) first).ID)) = none := by
      rw [List.find?_eq_none]
      intro r hr
      simpa [register] using hfresh r hr
    rw [hnone]
    simp [register]

/-- Witness of claim C3: the exchange answers with a limit leg and a stop-limit leg,
the second create fails; the repository holds the limit leg under local id 1. -/
theorem OrderOCO_second_leg_fails_witness :
    (NewController []).mtx = false ∧
    secondCreateFails.exchange.OrderOCO .Sell "BTCUSDT" 2 13000 9500 9000 =
      .ok [btcOrder 201 .Sell .Limit .New 13000 2 none 5,
           btcOrder 202 .Sell .StopLossLimit .New 9000 2 (some 9500) 5] ∧
    secondCreateFails.createFails 0 = false ∧ secondCreateFails.createFails 1 = true ∧
    ∃ (c' : Controller) (err : Error),
      OrderOCO secondCreateFails (NewController []) .Sell "BTCUSDT" 2 13000 9500 9000 =
        .ok (c', .error err) ∧
      c'.storage =
        [{ ID := 1, ExchangeID := 201, Symbol := "BTCUSDT", Side := .Sell, Type_ := .Limit,
           Status := .New, Price := 13000, Quantity := 2, Stop := 0, GroupID := none,
           CreatedAt := 5, UpdatedAt := 5 }] ∧
      c'.storage.find? (fun r => decide (r.ID = 1)) =
        some { ID := 1, ExchangeID := 201, Symbol := "BTCUSDT", Side := .Sell,
               Type_ := .Limit, Status := .New, Price := 13000, Quantity := 2, Stop := 0,
               GroupID := none, CreatedAt := 5, UpdatedAt := 5 } := by
  refine ⟨rfl, rfl, rfl, rfl, ?_⟩
  obtain ⟨c', err, row, hrun, hrow, -, hst, hfind, -⟩ :=
    OrderOCO_second_leg_fails secondCreateFails (NewController []) .Sell "BTCUSDT" 2 13000
      9500 9000 _ _ [] rfl rfl rfl rfl
  subst hrow
  exact ⟨c', err, hrun, hst, hfind⟩

end Ninjabot
